import Mathlib

/-!
Verification development for the five-channel-analysis repository.

The Python sources are shallowly embedded as Lean definitions:

* `Normalizer` models `src/analysis/normalizer.py` (`normalize_term`).
* `Daily` models `src/analysis/daily_processor.py` (`DailyProcessor.process_posts`)
  together with the term repository (`src/database/repositories.py`,
  `TermRepository.get_or_create`).
* `Crawl` models `src/scraping/daily_scraper.py` (`collect_posts_for_date`)
  over an oracle for `Scraper.fetch` (`src/scraping/scraper.py`), which either
  returns a page or raises a `RequestException`.
* `Weekly` models `src/analysis/weekly_processor.py` and
  `src/analysis/statistics.py` over oracles for the database repositories and
  for the external numerical routines (`scipy` / `statsmodels`).

Machine floating point arithmetic is modelled with exact rationals; external
library calls (MeCab tokenisation, BeautifulSoup parsing, `urljoin`,
`proportion_confint`, `statsmodels` OLS, floating-point square root) are
parameters of the embedding, mirroring the spec's "external collaborator"
interfaces.
-/

namespace Normalizer

/-- The punctuation/symbol set removed by `normalize_term`
(regex `[_\-\.,:;/\\\(\)\[\]!?]` in `src/analysis/normalizer.py`). -/
def symbolChars : List Char := ['_', '-', '.', ',', ':', ';', '/', '\\', '(', ')', '[', ']', '!', '?']

/-- The long-vowel / wave-dash set removed by `normalize_term`
(regex `[ー〜~]`). -/
def longVowelChars : List Char := ['ー', '〜', '~']

/-- Whitespace characters recognised by the Python regex `\s` and by
`str.strip` for the character repertoire used in this development
(ASCII whitespace, no-break space U+00A0 and ideographic space U+3000). -/
def spaceChars : List Char :=
  [' ', '\t', '\n', '\r', Char.ofNat 0x0b, Char.ofNat 0x0c, Char.ofNat 0xa0, Char.ofNat 0x3000]

def isSpace (c : Char) : Bool := spaceChars.contains c

/-- The 26 ASCII case pairs: `str.lower` on the repertoire used in this
development (ASCII letters; kana and CJK are unaffected by `lower`). -/
def caseTable : List (Char × Char) :=
  [('A', 'a'), ('B', 'b'), ('C', 'c'), ('D', 'd'), ('E', 'e'), ('F', 'f'), ('G', 'g'),
   ('H', 'h'), ('I', 'i'), ('J', 'j'), ('K', 'k'), ('L', 'l'), ('M', 'm'), ('N', 'n'),
   ('O', 'o'), ('P', 'p'), ('Q', 'q'), ('R', 'r'), ('S', 's'), ('T', 't'), ('U', 'u'),
   ('V', 'v'), ('W', 'w'), ('X', 'x'), ('Y', 'y'), ('Z', 'z')]

/-- `str.lower`, character-wise, via `caseTable`. -/
def lowerChar (c : Char) : Char :=
  ((caseTable.find? (fun p => p.1 == c)).map Prod.snd).getD c

/-- Compatibility decompositions of `unicodedata.normalize("NFKC", ·)` for the
character repertoire used in this development, per `UnicodeData.txt`:
fullwidth ASCII forms fold to ASCII, the ideographic space folds to a space,
and the precomposed kana `が` (U+304C) canonically decomposes to
`か` (U+304B) followed by the combining voiced sound mark (U+3099).
Characters outside the table decompose to themselves. -/
def nfkcDecompTable : List (Char × List Char) :=
  [('Ｐ', ['P']), ('ｙ', ['y']), ('ｔ', ['t']), ('ｈ', ['h']), ('ｏ', ['o']), ('ｎ', ['n']),
   (Char.ofNat 0x3000, [' ']),
   ('が', ['か', Char.ofNat 0x3099])]

def nfkcDecompChar (c : Char) : List Char :=
  ((nfkcDecompTable.find? (fun p => p.1 == c)).map Prod.snd).getD [c]

/-- Canonical composition pairs (`UnicodeData.txt`) for the repertoire used in
this development: `か` (U+304B) + combining voiced sound mark (U+3099)
composes to `が` (U+304C). -/
def composeTable : List ((Char × Char) × Char) :=
  [(('か', Char.ofNat 0x3099), 'が')]

def composePair (a b : Char) : Option Char :=
  (composeTable.find? (fun e => e.1.1 == a && e.1.2 == b)).map Prod.snd

/-- Composition step: `composeGo a l` composes the pending starter `a` with
the head of `l` when the pair is in `composeTable`. -/
def composeGo (a : Char) : List Char → List Char
  | [] => [a]
  | b :: rest =>
    match composePair a b with
    | some c => composeGo c rest
    | none => a :: composeGo b rest

/-- One left-to-right canonical-composition pass (the composition phase of
NFKC restricted to the modelled repertoire, where all modelled combining
marks immediately follow their starters). -/
def composeChars : List Char → List Char
  | [] => []
  | a :: rest => composeGo a rest

/-- `unicodedata.normalize("NFKC", ·)` for the modelled repertoire:
compatibility-decompose every character, then compose canonically. -/
def nfkc (l : List Char) : List Char :=
  composeChars (l.flatMap nfkcDecompChar)

/-- Collapse every maximal run of whitespace to a single `' '`
(the regex substitution `re.sub(r'\s+', ' ', ·)`). -/
def collapseWs : List Char → List Char
  | [] => []
  | [c] => if isSpace c then [' '] else [c]
  | a :: b :: rest =>
    if isSpace a then
      if isSpace b then collapseWs (b :: rest)
      else ' ' :: collapseWs (b :: rest)
    else a :: collapseWs (b :: rest)

/-- Remove the longest trailing run of characters satisfying `p`. -/
def dropTrail (p : Char → Bool) : List Char → List Char
  | [] => []
  | a :: rest =>
    if dropTrail p rest = [] ∧ p a = true then [] else a :: dropTrail p rest

/-- Python `str.strip()`: remove leading and trailing whitespace. -/
def stripEnds (l : List Char) : List Char :=
  dropTrail isSpace (l.dropWhile isSpace)

/-- `normalize_term` from `src/analysis/normalizer.py`, character-list level:
NFKC, lowercase, strip the symbol set, strip long-vowel marks, collapse
whitespace runs, trim, and reject results of length at most 1. -/
def normalizeChars (t : List Char) : List Char :=
  if t = [] then []
  else
    let n1 := nfkc t
    let n2 := n1.map lowerChar
    let n3 := n2.filter (fun c => !(symbolChars.contains c))
    let n4 := n3.filter (fun c => !(longVowelChars.contains c))
    let n5 := stripEnds (collapseWs n4)
    if n5.length ≤ 1 then [] else n5

/-- `normalize_term(term: str) -> str`. -/
def normalize_term (s : String) : String :=
  String.mk (normalizeChars s.data)


def noDoub : List Char → Prop
  | a :: b :: rest => ¬(isSpace a = true ∧ isSpace b = true) ∧ noDoub (b :: rest)
  | _ => True

theorem lowerChar_idem (c : Char) : lowerChar (lowerChar c) = lowerChar c := by
  unfold lowerChar
  cases h : caseTable.find? (fun p => p.1 == c) with
  | none => simp [h]
  | some p =>
    have hmem : p ∈ caseTable := List.mem_of_find?_eq_some h
    have hall : ∀ q ∈ caseTable, (((caseTable.find? (fun r => r.1 == q.2)).map Prod.snd).getD q.2) = q.2 := by decide
    simp [hall p hmem]

theorem mem_collapseWs {c : Char} : ∀ {l : List Char}, c ∈ collapseWs l → c = ' ' ∨ (c ∈ l ∧ isSpace c = false)
  | [], h => by simp [collapseWs] at h
  | [a], h => by
    simp only [collapseWs] at h
    split at h
    · simp at h; left; exact h
    · simp at h; subst h; rename_i hsp; right; exact ⟨List.mem_cons_self _ _, by simpa using hsp⟩
  | a :: b :: rest, h => by
    simp only [collapseWs] at h
    split at h
    · split at h
      · rcases mem_collapseWs h with h1 | h2
        · left; exact h1
        · right; exact ⟨List.mem_cons_of_mem _ h2.1, h2.2⟩
      · rcases List.mem_cons.mp h with h1 | h1
        · left; exact h1
        · rcases mem_collapseWs h1 with h2 | h3
          · left; exact h2
          · right; exact ⟨List.mem_cons_of_mem _ h3.1, h3.2⟩
    · rcases List.mem_cons.mp h with h1 | h1
      · subst h1; rename_i hsp; right; exact ⟨List.mem_cons_self _ _, by simpa using hsp⟩
      · rcases mem_collapseWs h1 with h2 | h3
        · left; exact h2
        · right; exact ⟨List.mem_cons_of_mem _ h3.1, h3.2⟩

theorem collapseWs_cons_nonspace {b : Char} (hb : isSpace b = false) (rest : List Char) :
    collapseWs (b :: rest) = b :: collapseWs rest := by
  cases rest with
  | nil => simp [collapseWs, hb]
  | cons c r => simp [collapseWs, hb]

theorem noDoub_tail {a : Char} {l : List Char} (h : noDoub (a :: l)) : noDoub l := by
  cases l with
  | nil => trivial
  | cons b r => exact h.2

theorem noDoub_collapseWs : ∀ l : List Char, noDoub (collapseWs l)
  | [] => by simp [collapseWs, noDoub]
  | [c] => by
    simp only [collapseWs]
    split <;> simp [noDoub]
  | a :: b :: rest => by
    simp only [collapseWs]
    by_cases ha : isSpace a = true
    · by_cases hb : isSpace b = true
      · simpa [ha, hb] using noDoub_collapseWs (b :: rest)
      · simp only [ha, if_true, hb, if_false]
        rw [collapseWs_cons_nonspace (by simpa using hb)]
        refine ⟨?_, ?_⟩
        · rintro ⟨-, h2⟩; simp [hb] at h2
        · rw [← collapseWs_cons_nonspace (by simpa using hb)]
          exact noDoub_collapseWs (b :: rest)
    · simp only [ha, if_false]
      have h2 := noDoub_collapseWs (b :: rest)
      by_cases hb : isSpace b = true
      · -- head of collapseWs (b :: rest) may be anything, but a is not a space
        cases hcb : collapseWs (b :: rest) with
        | nil => simp [noDoub]
        | cons x t => exact ⟨fun hc => ha hc.1, by rw [← hcb]; exact h2⟩
      · cases hcb : collapseWs (b :: rest) with
        | nil => simp [noDoub]
        | cons x t => exact ⟨fun hc => ha hc.1, by rw [← hcb]; exact h2⟩

theorem collapseWs_eq_self : ∀ {l : List Char}, (∀ c ∈ l, isSpace c = true → c = ' ') → noDoub l → collapseWs l = l
  | [], _, _ => rfl
  | [c], hb, _ => by
    simp only [collapseWs]
    split
    · rename_i hs; rw [hb c (by simp) hs]
    · rfl
  | a :: b :: rest, hb, hd => by
    simp only [collapseWs]
    by_cases ha : isSpace a = true
    · have hb2 : isSpace b = false := by
        rcases hd with ⟨h1, -⟩
        by_contra hcon
        exact h1 ⟨ha, by simpa using hcon⟩
      simp only [ha, if_true, hb2, Bool.false_eq_true, if_false]
      rw [hb a (by simp) ha]
      congr 1
      exact collapseWs_eq_self (fun c hc hs => hb c (List.mem_cons_of_mem _ hc) hs) (noDoub_tail hd)
    · simp [ha, collapseWs_eq_self (fun c hc hs => hb c (List.mem_cons_of_mem _ hc) hs) (noDoub_tail hd)]

theorem mem_dropTrail {c : Char} {p : Char → Bool} : ∀ {l : List Char}, c ∈ dropTrail p l → c ∈ l
  | [], h => by simp [dropTrail] at h
  | a :: rest, h => by
    simp only [dropTrail] at h
    split at h
    · simp at h
    · rcases List.mem_cons.mp h with h1 | h1
      · simp [h1]
      · exact List.mem_cons_of_mem _ (mem_dropTrail h1)

theorem dropTrail_head? {p : Char → Bool} : ∀ {l : List Char}, dropTrail p l ≠ [] → (dropTrail p l).head? = l.head?
  | [], h => by simp [dropTrail] at h
  | a :: rest, h => by
    simp only [dropTrail] at h ⊢
    split at h
    · simp at h
    · rename_i hc
      rw [if_neg hc]
      rfl

theorem noDoub_dropTrail {p : Char → Bool} : ∀ {l : List Char}, noDoub l → noDoub (dropTrail p l)
  | [], _ => by simp [dropTrail, noDoub]
  | a :: rest, hd => by
    simp only [dropTrail]
    split
    · trivial
    · have htail : noDoub (dropTrail p rest) := noDoub_dropTrail (noDoub_tail hd)
      cases hdr : dropTrail p rest with
      | nil => simp [noDoub]
      | cons x t =>
        have hx : rest.head? = some x := by
          rw [← dropTrail_head? (p := p) (l := rest) (by simp [hdr]), hdr]; rfl
        cases rest with
        | nil => simp at hx
        | cons b r =>
          simp at hx; subst hx
          exact ⟨hd.1, by rw [← hdr]; exact htail⟩

theorem noDoub_dropWhile {p : Char → Bool} : ∀ {l : List Char}, noDoub l → noDoub (l.dropWhile p)
  | [], _ => by simp [noDoub]
  | a :: rest, hd => by
    rw [List.dropWhile_cons]
    split
    · exact noDoub_dropWhile (noDoub_tail hd)
    · exact hd

theorem dropTrail_idem {p : Char → Bool} : ∀ l : List Char, dropTrail p (dropTrail p l) = dropTrail p l
  | [] => rfl
  | a :: rest => by
    simp only [dropTrail]
    split
    · rfl
    · rename_i hc
      simp only [dropTrail, dropTrail_idem rest]
      simp only [if_neg hc]

theorem head?_dropWhile {p : Char → Bool} : ∀ l : List Char, l.dropWhile p = [] ∨ ∃ a t, l.dropWhile p = a :: t ∧ p a = false
  | [] => Or.inl rfl
  | a :: rest => by
    rw [List.dropWhile_cons]
    split
    · exact head?_dropWhile rest
    · rename_i hp
      exact Or.inr ⟨a, rest, rfl, by simpa using hp⟩

theorem stripEnds_fix {l : List Char} : stripEnds (stripEnds l) = stripEnds l := by
  unfold stripEnds
  rcases head?_dropWhile (p := isSpace) l with h | ⟨a, t, h, hpa⟩
  · simp [h, dropTrail]
  · rw [h]
    cases hdt : dropTrail isSpace (a :: t) with
    | nil => simp [dropTrail]
    | cons x u =>
      have hx : x = a := by
        have h2 := dropTrail_head? (p := isSpace) (l := a :: t) (by simp [hdt])
        rw [hdt] at h2; simpa using h2
      subst hx
      rw [List.dropWhile_cons, if_neg (by simp [hpa]), ← hdt, dropTrail_idem]

theorem dropWhile_dropTrail_dropWhile {p : Char → Bool} (l : List Char) :
    (dropTrail p (l.dropWhile p)).dropWhile p = dropTrail p (l.dropWhile p) := by
  rcases head?_dropWhile (p := p) l with h | ⟨a, t, h, hpa⟩
  · simp [h, dropTrail]
  · rw [h]
    cases hdt : dropTrail p (a :: t) with
    | nil => rfl
    | cons x u =>
      have hx : x = a := by
        have h2 := dropTrail_head? (p := p) (l := a :: t) (by simp [hdt])
        rw [hdt] at h2; simpa using h2
      subst hx
      rw [List.dropWhile_cons, if_neg (by simp [hpa])]

theorem map_eq_self_of_fixed {f : Char → Char} : ∀ {l : List Char}, (∀ c ∈ l, f c = c) → l.map f = l
  | [], _ => rfl
  | a :: rest, h => by
    simp only [List.map_cons]
    rw [h a (by simp), map_eq_self_of_fixed (fun c hc => h c (List.mem_cons_of_mem _ hc))]

theorem normalizeChars_shape (t : List Char) :
    normalizeChars t = [] ∨
      (normalizeChars t =
          stripEnds (collapseWs (((((nfkc t).map lowerChar).filter
            (fun c => !(symbolChars.contains c))).filter
            (fun c => !(longVowelChars.contains c))))) ∧
        2 ≤ (normalizeChars t).length) := by
  by_cases h0 : t = []
  · left; simp [normalizeChars, h0]
  · unfold normalizeChars
    simp only [h0, if_false]
    split
    · left; rfl
    · rename_i hlen
      right
      exact ⟨rfl, by omega⟩

theorem mem_stripEnds_collapseWs {c : Char} {l : List Char}
    (h : c ∈ stripEnds (collapseWs l)) : c ∈ collapseWs l := by
  unfold stripEnds at h
  exact (List.dropWhile_sublist _).subset (mem_dropTrail h)

theorem normalizeChars_idem_of_nfkc_fixed {t : List Char}
    (h : nfkc (normalizeChars t) = normalizeChars t) :
    normalizeChars (normalizeChars t) = normalizeChars t := by
  rcases normalizeChars_shape t with h0 | ⟨hs, hlen⟩
  · rw [h0]; rfl
  · have hf : ∀ c ∈ normalizeChars t, c = ' ' ∨
        (c ∈ ((((nfkc t).map lowerChar).filter (fun c => !(symbolChars.contains c))).filter
          (fun c => !(longVowelChars.contains c))) ∧ isSpace c = false) := by
      intro c hc
      rw [hs] at hc
      exact mem_collapseWs (mem_stripEnds_collapseWs hc)
    have hlow : ∀ c ∈ normalizeChars t, lowerChar c = c := by
      intro c hc
      rcases hf c hc with h1 | ⟨h1, -⟩
      · subst h1; decide
      · rcases List.mem_map.mp (List.mem_of_mem_filter (List.mem_of_mem_filter h1)) with ⟨d, -, hd⟩
        rw [← hd]; exact lowerChar_idem d
    have hsym : ∀ c ∈ normalizeChars t, (!(symbolChars.contains c)) = true := by
      intro c hc
      rcases hf c hc with h1 | ⟨h1, -⟩
      · subst h1; decide
      · have h2 : c ∈ List.filter (fun c => !symbolChars.contains c) (List.map lowerChar (nfkc t)) :=
          List.mem_of_mem_filter h1
        exact List.of_mem_filter (p := fun c => !(symbolChars.contains c)) h2
    have hlv : ∀ c ∈ normalizeChars t, (!(longVowelChars.contains c)) = true := by
      intro c hc
      rcases hf c hc with h1 | ⟨h1, -⟩
      · subst h1; decide
      · exact List.of_mem_filter (p := fun c => !(longVowelChars.contains c)) h1
    have hblank : ∀ c ∈ normalizeChars t, isSpace c = true → c = ' ' := by
      intro c hc hspace
      rcases hf c hc with h1 | ⟨-, h2⟩
      · exact h1
      · rw [hspace] at h2; cases h2
    have hnd : noDoub (normalizeChars t) := by
      rw [hs]
      exact noDoub_dropTrail (noDoub_dropWhile (noDoub_collapseWs _))
    have hcol : collapseWs (normalizeChars t) = normalizeChars t :=
      collapseWs_eq_self hblank hnd
    have hdw : (normalizeChars t).dropWhile isSpace = normalizeChars t := by
      rw [hs]
      exact dropWhile_dropTrail_dropWhile _
    have hdt : dropTrail isSpace (normalizeChars t) = normalizeChars t := by
      conv_lhs => rw [hs]
      rw [hs]
      exact dropTrail_idem _
    have hstrip : stripEnds (normalizeChars t) = normalizeChars t := by
      unfold stripEnds
      rw [hdw, hdt]
    have hne : normalizeChars t ≠ [] := by
      intro hcon; rw [hcon] at hlen; simp at hlen
    rw [normalizeChars.eq_def]
    rw [if_neg hne]
    simp only [h, map_eq_self_of_fixed hlow, List.filter_eq_self.mpr hsym,
      List.filter_eq_self.mpr hlv, hcol, hstrip]
    rw [if_neg (by omega)]

def kaDashMark : String := String.mk ['か', '-', Char.ofNat 0x3099]

theorem normalize_term_not_idempotent_counterexample :
    normalize_term (normalize_term kaDashMark) ≠ normalize_term kaDashMark := by
  decide

theorem normalize_term_idem_of_nfkc_fixed (s : String)
    (h : nfkc (normalize_term s).data = (normalize_term s).data) :
    normalize_term (normalize_term s) = normalize_term s := by
  unfold normalize_term at h ⊢
  exact congrArg String.mk (normalizeChars_idem_of_nfkc_fixed h)

theorem normalize_term_idem_witness :
    nfkc (normalize_term "Python").data = (normalize_term "Python").data ∧
      normalize_term (normalize_term "Python") = normalize_term "Python" :=
  ⟨by decide, normalize_term_idem_of_nfkc_fixed "Python" (by decide)⟩

end Normalizer

namespace Crawl

/-- `ThreadInfo` from `src/scraping/parser.py`. -/
structure ThreadInfo where
  path : String
deriving DecidableEq, Repr

/-- `PostInfo` from `src/scraping/parser.py`. -/
structure PostInfo where
  date : String
  content : String
deriving DecidableEq, Repr

/-- `CollectedPost` from `src/scraping/daily_scraper.py`. -/
structure CollectedPost where
  thread_path : String
  date : String
  content : String
deriving DecidableEq, Repr

/-- Python `str.startswith`. -/
def strStarts (s p : String) : Bool := p.data.isPrefixOf s.data

/-- Oracle environment for one crawl run.

* `fetch` models `Scraper.fetch` (`src/scraping/scraper.py`): per its annotation
  it returns `Optional[str]`, and on a network error or exhausted retries it
  raises `requests.RequestException` (modelled by `Except.error ()`).  Its code
  in fact never returns `None`: it returns the page text or raises.
* `parse_board_page` / `parse_thread_page` model the BeautifulSoup-based
  extraction in `src/scraping/parser.py` (an external-collaborator interface
  per the spec: total, returns an empty list on unrecognised input).
* `build_url` models `src/scraping/utils.py` `build_url` (stdlib `urljoin`).
* `dateMarkOf` models `_build_date_prefix`, i.e. `strftime("%Y/%m/%d(")` of a
  day expressed as a proleptic-Gregorian ordinal. -/
structure Env where
  fetch : String → Except Unit (Option String)
  parse_board_page : String → List ThreadInfo
  parse_thread_page : String → List PostInfo
  build_url : String → String → String
  dateMarkOf : ℤ → String

/-- The thread-page URL built at the top of the loop body of
`collect_posts_for_date`: with `max_posts = some m` the suffix `/l{m}` is
appended to the thread path. -/
def threadUrl (env : Env) (base_url : String) (max_posts : Option ℕ)
    (t : ThreadInfo) : String :=
  match max_posts with
  | some m => env.build_url base_url (t.path ++ "/l" ++ toString m)
  | none => env.build_url base_url t.path

/-- The per-thread loop of `collect_posts_for_date`
(`src/scraping/daily_scraper.py` lines 100-145): fetch each thread page
(an exception from `fetch` propagates; a `None` page is skipped), partition
its posts by the target-day and next-day date marks, stop at the first
successfully fetched thread with neither, and accumulate the target-day
posts. -/
def collectLoop (env : Env) (base_url : String) (max_posts : Option ℕ)
    (dateMark todayMark : String) :
    List ThreadInfo → List CollectedPost → Except Unit (List CollectedPost)
  | [], acc => .ok acc
  | t :: rest, acc =>
    match env.fetch (threadUrl env base_url max_posts t) with
    | .error e => .error e
    | .ok none => collectLoop env base_url max_posts dateMark todayMark rest acc
    | .ok (some html) =>
      let posts := env.parse_thread_page html
      let target_posts := posts.filter (fun post => strStarts post.date dateMark)
      let today_posts := posts.filter (fun post => strStarts post.date todayMark)
      if target_posts = [] ∧ today_posts = [] then .ok acc
      else
        collectLoop env base_url max_posts dateMark todayMark rest
          (acc ++ target_posts.map (fun post => ⟨t.path, post.date, post.content⟩))

/-- `collect_posts_for_date` (`src/scraping/daily_scraper.py`): fetch the board
page, parse the thread list, and run the bounded per-thread crawl for the
target day `target` (an ordinal date; the next-day mark uses `target + 1`). -/
def collect_posts_for_date (env : Env) (base_url board_path : String)
    (target : ℤ) (max_posts : Option ℕ) : Except Unit (List CollectedPost) :=
  let dateMark := env.dateMarkOf target
  let todayMark := env.dateMarkOf (target + 1)
  match env.fetch (env.build_url base_url board_path) with
  | .error e => .error e
  | .ok none => .ok []
  | .ok (some board_html) =>
    collectLoop env base_url max_posts dateMark todayMark
      (env.parse_board_page board_html) []

/-- A minimal crawl environment: the board page fetch succeeds and yields one
thread, and the fetch of that thread's page fails (network error /
exhausted retries, i.e. `Scraper.fetch` raises `requests.RequestException`). -/
def failingThreadEnv : Env where
  fetch := fun url => if url = "https://x.example/board/" then .ok (some "BOARD") else .error ()
  parse_board_page := fun _ => [⟨"/test/read.cgi/prog/1"⟩]
  parse_thread_page := fun _ => []
  build_url := fun a b => a ++ b
  dateMarkOf := fun _ => "2025/01/01("

/-- C1: the claim (and the code's own inline comment) says a failed thread
fetch is skipped and the crawl continues, but `Scraper.fetch` raises on
failure and never returns `None`, so the `thread_html is None` skip branch is
unreachable and the exception propagates out of `collect_posts_for_date`,
aborting the crawl: on a board with one thread whose page fetch fails, the
crawl evaluates to the propagated exception instead of an empty batch. -/
theorem fetch_failure_aborts_crawl :
    collect_posts_for_date failingThreadEnv "https://x.example" "/board/" 0 none =
      .error () := rfl

/-- The target-date and next-day partitions of a fetched thread page, as
computed in the loop body of `collect_posts_for_date`. -/
def pagePosts (env : Env) (html : String) (mark : String) : List PostInfo :=
  (env.parse_thread_page html).filter (fun post => strStarts post.date mark)

/-- Unfolding equation for `collectLoop` on a non-empty listing, stated via
`pagePosts`. -/
theorem collectLoop_cons (env : Env) (base_url : String) (max_posts : Option ℕ)
    (dateMark todayMark : String) (t : ThreadInfo) (rest : List ThreadInfo)
    (acc : List CollectedPost) :
    collectLoop env base_url max_posts dateMark todayMark (t :: rest) acc =
      match env.fetch (threadUrl env base_url max_posts t) with
      | .error e => .error e
      | .ok none => collectLoop env base_url max_posts dateMark todayMark rest acc
      | .ok (some html) =>
        if pagePosts env html dateMark = [] ∧ pagePosts env html todayMark = [] then .ok acc
        else
          collectLoop env base_url max_posts dateMark todayMark rest
            (acc ++ (pagePosts env html dateMark).map
              (fun post => ⟨t.path, post.date, post.content⟩)) := rfl

/-- C3: the crawl visits threads in listing order and stops at the first
successfully fetched thread that yields zero target-date posts and zero
next-day posts; the run is equal to the run over the listing truncated just
before that thread, so no posts from any later thread appear in the returned
batch. -/
theorem crawl_stops_at_first_empty_thread
    (env : Env) (base_url : String) (max_posts : Option ℕ)
    (dateMark todayMark : String) :
    ∀ (threads : List ThreadInfo) (acc : List CollectedPost) (i : ℕ)
      (hi : i < threads.length),
      (∀ j (hj : j < i),
        env.fetch (threadUrl env base_url max_posts (threads.get ⟨j, Nat.lt_trans hj hi⟩)) = .error () ∨
        env.fetch (threadUrl env base_url max_posts (threads.get ⟨j, Nat.lt_trans hj hi⟩)) = .ok none ∨
        (∃ html,
          env.fetch (threadUrl env base_url max_posts (threads.get ⟨j, Nat.lt_trans hj hi⟩)) =
            .ok (some html) ∧
          ¬(pagePosts env html dateMark = [] ∧ pagePosts env html todayMark = []))) →
      (∃ html,
        env.fetch (threadUrl env base_url max_posts (threads.get ⟨i, hi⟩)) = .ok (some html) ∧
        pagePosts env html dateMark = [] ∧ pagePosts env html todayMark = []) →
      collectLoop env base_url max_posts dateMark todayMark threads acc =
        collectLoop env base_url max_posts dateMark todayMark (threads.take i) acc := by
  intro threads
  induction threads with
  | nil =>
    intro acc i hi
    exact absurd hi (by simp)
  | cons t rest ih =>
    intro acc i hi hbefore hat
    cases i with
    | zero =>
      rcases hat with ⟨html, hf, h1, h2⟩
      have hf2 : env.fetch (threadUrl env base_url max_posts t) = .ok (some html) := hf
      rw [List.take_zero, collectLoop_cons, hf2]
      simp only [if_pos (And.intro h1 h2)]
      rfl
    | succ j =>
      have hj : j < rest.length := by simpa using Nat.lt_of_succ_lt_succ hi
      have h0 := hbefore 0 (Nat.succ_pos j)
      rw [List.take_succ_cons]
      rcases h0 with he | hn | ⟨html, hf, hne⟩
      · have he2 : env.fetch (threadUrl env base_url max_posts t) = .error () := he
        rw [collectLoop_cons, collectLoop_cons, he2]
      · have hn2 : env.fetch (threadUrl env base_url max_posts t) = .ok none := hn
        rw [collectLoop_cons, collectLoop_cons, hn2]
        exact ih acc j hj
          (fun k hk => by
            have h3 := hbefore (k + 1) (Nat.succ_lt_succ hk)
            simpa using h3)
          (by simpa using hat)
      · have hf2 : env.fetch (threadUrl env base_url max_posts t) = .ok (some html) := hf
        rw [collectLoop_cons, collectLoop_cons, hf2]
        simp only [if_neg hne]
        exact ih _ j hj
          (fun k hk => by
            have h3 := hbefore (k + 1) (Nat.succ_lt_succ hk)
            simpa using h3)
          (by simpa using hat)

/-- Concrete three-thread listing: T1 has a target-date post, T2 has neither a
target-date nor a next-day post, T3 has a target-date post. -/
def threeThreadsEnv : Env where
  fetch := fun url => if url = "Bb" then .ok (some "BOARD") else .ok (some url)
  parse_board_page := fun _ => [⟨"T1"⟩, ⟨"T2"⟩, ⟨"T3"⟩]
  parse_thread_page := fun html =>
    if html = "BT1" then [⟨"2025/01/01(水) 12:00:00.00", "alpha"⟩]
    else if html = "BT3" then [⟨"2025/01/01(水) 13:00:00.00", "gamma"⟩]
    else []
  build_url := fun a b => a ++ b
  dateMarkOf := fun d => if d = 0 then "2025/01/01(" else "2025/01/02("

theorem crawl_stops_witness :
    (∃ html,
      threeThreadsEnv.fetch (threadUrl threeThreadsEnv "B" none ⟨"T2"⟩) = .ok (some html) ∧
      pagePosts threeThreadsEnv html "2025/01/01(" = [] ∧
      pagePosts threeThreadsEnv html "2025/01/02(" = []) ∧
    collectLoop threeThreadsEnv "B" none "2025/01/01(" "2025/01/02("
        [⟨"T1"⟩, ⟨"T2"⟩, ⟨"T3"⟩] [] =
      collectLoop threeThreadsEnv "B" none "2025/01/01(" "2025/01/02("
        ([⟨"T1"⟩, ⟨"T2"⟩, ⟨"T3"⟩].take 1) [] := by
  constructor
  · exact ⟨"BT2", rfl, rfl, rfl⟩
  · refine crawl_stops_at_first_empty_thread threeThreadsEnv "B" none
      "2025/01/01(" "2025/01/02(" [⟨"T1"⟩, ⟨"T2"⟩, ⟨"T3"⟩] [] 1 (by decide)
      ?_ ?_
    · intro j hj
      have hj0 : j = 0 := by omega
      subst hj0
      right; right
      exact ⟨"BT1", rfl, by decide⟩
    · exact ⟨"BT2", rfl, rfl, rfl⟩

end Crawl

namespace Daily

open Normalizer (normalize_term)
open Crawl (CollectedPost)

/-- A row of the `terms` table (`src/database/models.py`): the fields consumed
by `process_posts` (`term_id`, `is_blocked`).  New terms are created with
`is_blocked = false` (the column default). -/
structure Term where
  term_id : ℕ
  is_blocked : Bool
deriving DecidableEq, Repr

/-- The `terms` table with its autoincrement id sequence: an association list
`normalized ↦ Term` in insertion order plus the next id to allocate. -/
structure TermStore where
  assoc : List (String × Term)
  nextId : ℕ
deriving DecidableEq, Repr

/-- `TermRepository.get_by_normalized`. -/
def TermStore.lookup (st : TermStore) (s : String) : Option Term :=
  (st.assoc.find? (fun e => e.1 == s)).map Prod.snd

/-- `TermRepository.get_or_create` (`src/database/repositories.py`): return
the existing row for `s` or insert a fresh one with the next id and
`is_blocked = false`. -/
def TermStore.get_or_create (st : TermStore) (s : String) : Term × TermStore :=
  match st.lookup s with
  | some t => (t, st)
  | none =>
    let t : Term := ⟨st.nextId, false⟩
    (t, ⟨st.assoc ++ [(s, t)], st.nextId + 1⟩)

/-- The `term_stats` accumulator of `process_posts`: an association list
`term_id ↦ (post_hits, thread_hits)` in first-touch order (a Python dict). -/
abbrev Stats := List (ℕ × ℕ × ℕ)

def statsFind (l : Stats) (i : ℕ) : Option (ℕ × ℕ) :=
  (l.find? (fun e => e.1 == i)).map Prod.snd

/-- `term_stats[term_id]["post_hits"] += 1` on a `defaultdict`. -/
def bumpPost : Stats → ℕ → Stats
  | [], i => [(i, 1, 0)]
  | e :: rest, i =>
    if e.1 = i then (e.1, e.2.1 + 1, e.2.2) :: rest else e :: bumpPost rest i

/-- `term_stats[term_id]["thread_hits"] += 1` on a `defaultdict`. -/
def bumpThread : Stats → ℕ → Stats
  | [], i => [(i, 0, 1)]
  | e :: rest, i =>
    if e.1 = i then (e.1, e.2.1, e.2.2 + 1) :: rest else e :: bumpThread rest i

/-- The counters of `DailyProcessorMetrics` (wall-clock fields omitted). -/
structure Metrics where
  fetched_threads : ℕ := 0
  fetched_posts : ℕ := 0
  parsed_posts : ℕ := 0
  parse_fail_posts : ℕ := 0
  tokenize_fail_posts : ℕ := 0
  total_tokens : ℕ := 0
  filtered_tokens : ℕ := 0
deriving DecidableEq, Repr

/-- `DailyProcessorMetrics.filtered_rate`. -/
def Metrics.filtered_rate (m : Metrics) : ℚ :=
  if m.total_tokens = 0 then 0 else (m.filtered_tokens : ℚ) / (m.total_tokens : ℚ)

/-- The in-flight state of `process_posts`: metrics counters, the `terms`
table, the `term_stats` accumulator, and the per-thread / per-post seen-sets
(`thread_term_ids`, `post_term_ids`). -/
structure AggSt where
  metrics : Metrics
  store : TermStore
  stats : Stats
  threadSeen : List ℕ
  postSeen : List ℕ
deriving DecidableEq, Repr

/-- The body of the `for noun in nouns` loop of `process_posts`
(`src/analysis/daily_processor.py` lines 124-153): count the token, normalize
it, drop rejects and blocked terms into `filtered_tokens`, and bump
`post_hits` / `thread_hits` once per post / per thread via the seen-sets. -/
def processNoun (st : AggSt) (noun : String) : AggSt :=
  let st := { st with metrics := { st.metrics with total_tokens := st.metrics.total_tokens + 1 } }
  let normalized := normalize_term noun
  if normalized = "" then
    { st with metrics := { st.metrics with filtered_tokens := st.metrics.filtered_tokens + 1 } }
  else
    let pr := st.store.get_or_create normalized
    let st := { st with store := pr.2 }
    if pr.1.is_blocked then
      { st with metrics := { st.metrics with filtered_tokens := st.metrics.filtered_tokens + 1 } }
    else
      let st :=
        if pr.1.term_id ∈ st.postSeen then st
        else { st with postSeen := st.postSeen ++ [pr.1.term_id],
                       stats := bumpPost st.stats pr.1.term_id }
      if pr.1.term_id ∈ st.threadSeen then st
      else { st with threadSeen := st.threadSeen ++ [pr.1.term_id],
                     stats := bumpThread st.stats pr.1.term_id }

/-- One iteration of the `for post in thread_post_list` loop: count the post
as parsed, tokenize it (`NounExtractor.extract_nouns`, injected; an exception
is caught and counted in `tokenize_fail_posts`), skip posts with no nouns,
and otherwise process the nouns with a fresh `post_term_ids` seen-set. -/
def processPost (tokenize : String → Except Unit (List String))
    (st : AggSt) (post : CollectedPost) : AggSt :=
  let st := { st with metrics := { st.metrics with parsed_posts := st.metrics.parsed_posts + 1 } }
  match tokenize post.content with
  | .error _ =>
    { st with metrics := { st.metrics with tokenize_fail_posts := st.metrics.tokenize_fail_posts + 1 } }
  | .ok nouns =>
    if nouns = [] then st
    else nouns.foldl processNoun { st with postSeen := [] }

/-- One iteration of the `for thread_path, thread_post_list in
thread_posts.items()` loop: process the thread's posts with a fresh
`thread_term_ids` seen-set. -/
def processThread (tokenize : String → Except Unit (List String))
    (st : AggSt) (g : String × List CollectedPost) : AggSt :=
  g.2.foldl (processPost tokenize) { st with threadSeen := [] }

/-- Insert a post into the thread grouping, preserving dict insertion order. -/
def insertPost : List (String × List CollectedPost) → CollectedPost →
    List (String × List CollectedPost)
  | [], p => [(p.thread_path, [p])]
  | g :: rest, p =>
    if g.1 = p.thread_path then (g.1, g.2 ++ [p]) :: rest else g :: insertPost rest p

/-- The `thread_posts: Dict[str, List[CollectedPost]] = defaultdict(list)`
grouping: keys in first-occurrence order, each thread's posts in input
order. -/
def groupByThread (posts : List CollectedPost) : List (String × List CollectedPost) :=
  posts.foldl insertPost []

/-- A `DailyTermStats` row (`src/database/models.py`); the date is a
proleptic-Gregorian ordinal. -/
structure DailyTermStats where
  date : ℤ
  board_key : String
  term_id : ℕ
  post_hits : ℕ
  thread_hits : ℕ
deriving DecidableEq, Repr

/-- `DailyProcessor.process_posts` (`src/analysis/daily_processor.py`):
group the batch by thread, run the counting loops, and return the final
state together with the `DailyTermStats` rows upserted at the end
(one row per `term_stats` entry). -/
def process_posts (tokenize : String → Except Unit (List String))
    (posts : List CollectedPost) (target_date : ℤ) (board_key : String)
    (store₀ : TermStore) : AggSt × List DailyTermStats :=
  let groups := groupByThread posts
  let st0 : AggSt :=
    { metrics := { fetched_threads := groups.length, fetched_posts := posts.length },
      store := store₀, stats := [], threadSeen := [], postSeen := [] }
  let stF := groups.foldl (processThread tokenize) st0
  (stF, stF.stats.map (fun e => ⟨target_date, board_key, e.1, e.2.1, e.2.2⟩))

/-- Specification-side predicate: token list `nouns` contains an occurrence of
the normalized string `s`. -/
def occursTok (nouns : List String) (s : String) : Bool :=
  nouns.any (fun n => normalize_term n == s)

/-- Specification-side predicate: the post contains an occurrence of the
normalized string `s` (false on tokenizer failure). -/
def occursPost (tokenize : String → Except Unit (List String))
    (s : String) (post : CollectedPost) : Bool :=
  match tokenize post.content with
  | .ok nouns => occursTok nouns s
  | .error _ => false

/-- Number of posts of `posts` containing `s`. -/
def postOccIn (tokenize : String → Except Unit (List String))
    (s : String) (posts : List CollectedPost) : ℕ :=
  posts.countP (occursPost tokenize s)

/-- Number of posts across the grouped batch containing `s`. -/
def postOcc (tokenize : String → Except Unit (List String))
    (s : String) (groups : List (String × List CollectedPost)) : ℕ :=
  (groups.map (fun g => postOccIn tokenize s g.2)).sum

/-- Number of threads of the grouped batch containing `s`. -/
def threadOcc (tokenize : String → Except Unit (List String))
    (s : String) (groups : List (String × List CollectedPost)) : ℕ :=
  groups.countP (fun g => g.2.any (occursPost tokenize s))

/-- Specification-side predicate: the token is dropped into
`filtered_tokens` — it normalizes to the reject sentinel, or its normalized
form resolves (in the pre-run `terms` table) to a blocked term. -/
def isFilteredTok (store₀ : TermStore) (n : String) : Bool :=
  normalize_term n == "" ||
    (match store₀.lookup (normalize_term n) with
     | some t => t.is_blocked
     | none => false)

/-- Tokens of one post dropped into `filtered_tokens` (none on tokenizer
failure). -/
def filteredIn (tokenize : String → Except Unit (List String))
    (store₀ : TermStore) (post : CollectedPost) : ℕ :=
  match tokenize post.content with
  | .ok nouns => nouns.countP (isFilteredTok store₀)
  | .error _ => 0

/-- Invariant of the `terms` table: allocated ids are below the sequence
counter, and keys and ids are pairwise distinct. -/
def TermStore.wf (st : TermStore) : Prop :=
  (∀ e ∈ st.assoc, e.2.term_id < st.nextId) ∧
  st.assoc.Pairwise (fun a b => a.1 ≠ b.1 ∧ a.2.term_id ≠ b.2.term_id)

end Daily

namespace Daily

theorem lookup_mem {st : TermStore} {s : String} {t : Term}
    (h : st.lookup s = some t) : (s, t) ∈ st.assoc := by
  unfold TermStore.lookup at h
  cases hf : st.assoc.find? (fun e => e.1 == s) with
  | none => rw [hf] at h; cases h
  | some e =>
    rw [hf] at h
    have he : e ∈ st.assoc := List.mem_of_find?_eq_some hf
    have hk : e.1 = s := by simpa using List.find?_some hf
    have hv : e.2 = t := by simpa using h
    have : e = (s, t) := Prod.ext hk hv
    rwa [this] at he

theorem lookup_eq_none_iff {st : TermStore} {s : String} :
    st.lookup s = none ↔ ∀ e ∈ st.assoc, e.1 ≠ s := by
  unfold TermStore.lookup
  rw [Option.map_eq_none', List.find?_eq_none]
  constructor
  · intro h e he
    have := h e he
    simpa using this
  · intro h e he
    simpa using h e he

theorem find_assoc_of_mem {s : String} {t : Term} :
    ∀ {l : List (String × Term)}, (s, t) ∈ l →
    l.Pairwise (fun a b => a.1 ≠ b.1 ∧ a.2.term_id ≠ b.2.term_id) →
    (l.find? (fun e => e.1 == s)).map Prod.snd = some t
  | [], h, _ => by cases h
  | e :: rest, h, hw => by
    rcases List.mem_cons.mp h with h1 | h1
    · rw [← h1]; simp
    · have hk : e.1 ≠ s := by
        have h2 := (List.pairwise_cons.mp hw).1 (s, t) h1
        simpa using h2.1
      have hb : (e.1 == s) = false := by simpa using hk
      rw [List.find?_cons, hb]
      exact find_assoc_of_mem h1 (List.pairwise_cons.mp hw).2

theorem lookup_mk_eq_some {st : TermStore} {s : String} {t : Term}
    (h : (s, t) ∈ st.assoc)
    (hw : st.assoc.Pairwise (fun a b => a.1 ≠ b.1 ∧ a.2.term_id ≠ b.2.term_id)) :
    st.lookup s = some t :=
  find_assoc_of_mem h hw

theorem wf_id_injective {st : TermStore} (hw : st.wf) {s1 s2 : String} {t1 t2 : Term}
    (h1 : st.lookup s1 = some t1) (h2 : st.lookup s2 = some t2)
    (hne : s1 ≠ s2) : t1.term_id ≠ t2.term_id := by
  have hm1 := lookup_mem h1
  have hm2 := lookup_mem h2
  have hpair := hw.2
  have hsymm : Symmetric (fun (a b : String × Term) => a.1 ≠ b.1 ∧ a.2.term_id ≠ b.2.term_id) := by
    intro a b hab
    exact ⟨hab.1.symm, hab.2.symm⟩
  have := List.Pairwise.forall hsymm hpair hm1 hm2 (by
    intro hcon
    apply hne
    exact congrArg Prod.fst hcon)
  exact this.2

theorem wf_lookup_id_lt {st : TermStore} (hw : st.wf) {s : String} {t : Term}
    (h : st.lookup s = some t) : t.term_id < st.nextId :=
  hw.1 (s, t) (lookup_mem h)

theorem get_or_create_hit {st : TermStore} {s : String} {t : Term}
    (h : st.lookup s = some t) : st.get_or_create s = (t, st) := by
  unfold TermStore.get_or_create
  rw [h]

theorem get_or_create_miss {st : TermStore} {s : String}
    (h : st.lookup s = none) :
    st.get_or_create s =
      (⟨st.nextId, false⟩, ⟨st.assoc ++ [(s, ⟨st.nextId, false⟩)], st.nextId + 1⟩) := by
  unfold TermStore.get_or_create
  rw [h]

theorem lookup_append_single {st : TermStore} {s q : String} {t : Term} :
    (TermStore.mk (st.assoc ++ [(q, t)]) (st.nextId + 1)).lookup s =
      match st.lookup s with
      | some u => some u
      | none => if q = s then some t else none := by
  unfold TermStore.lookup
  rw [List.find?_append]
  cases hf : st.assoc.find? (fun e => e.1 == s) with
  | some e => simp
  | none =>
    by_cases hq : q = s
    · subst hq; simp
    · have hb : (q == s) = false := by simpa using hq
      simp [List.find?, hb, hq]

theorem get_or_create_snd_lookup_self {st : TermStore} (s : String) :
    (st.get_or_create s).2.lookup s = some (st.get_or_create s).1 := by
  cases h : st.lookup s with
  | some t => rw [get_or_create_hit h]; exact h
  | none =>
    rw [get_or_create_miss h]
    rw [lookup_append_single]
    rw [h]
    show (if s = s then some (⟨st.nextId, false⟩ : Term) else none) = _
    rw [if_pos rfl]

theorem get_or_create_snd_lookup_mono {st : TermStore} {q : String} {u : Term}
    (s : String) (h : st.lookup q = some u) :
    (st.get_or_create s).2.lookup q = some u := by
  cases hs : st.lookup s with
  | some t => rw [get_or_create_hit hs]; exact h
  | none =>
    rw [get_or_create_miss hs]
    rw [lookup_append_single]
    rw [h]

theorem get_or_create_snd_lookup_other {st : TermStore} {q : String}
    (s : String) (hq : q ≠ s) :
    (st.get_or_create s).2.lookup q = st.lookup q := by
  cases hs : st.lookup s with
  | some t => rw [get_or_create_hit hs]
  | none =>
    rw [get_or_create_miss hs]
    rw [lookup_append_single]
    cases hlq : st.lookup q with
    | some u => rfl
    | none => simp [Ne.symm hq]

theorem get_or_create_wf {st : TermStore} (hw : st.wf) (s : String) :
    (st.get_or_create s).2.wf := by
  cases hs : st.lookup s with
  | some t => rw [get_or_create_hit hs]; exact hw
  | none =>
    rw [get_or_create_miss hs]
    constructor
    · intro e he
      rcases List.mem_append.mp he with h1 | h1
      · exact Nat.lt_trans (hw.1 e h1) (Nat.lt_succ_self _)
      · simp at h1
        rw [h1]
        exact Nat.lt_succ_self _
    · rw [List.pairwise_append]
      refine ⟨hw.2, by simp, ?_⟩
      intro a ha b hb
      simp at hb
      subst hb
      constructor
      · have := (lookup_eq_none_iff.mp hs) a ha
        simpa using this
      · have := hw.1 a ha
        simp only
        omega

end Daily

namespace Daily

theorem statsFind_bumpPost (l : Stats) (i j : ℕ) :
    statsFind (bumpPost l i) j =
      if j = i then
        some (match statsFind l i with
              | none => (1, 0)
              | some pq => (pq.1 + 1, pq.2))
      else statsFind l j := by
  induction l with
  | nil =>
    by_cases hj : j = i
    · subst hj; simp [bumpPost, statsFind, List.find?]
    · have hb : (i == j) = false := by simpa using fun h => hj h.symm
      simp [bumpPost, statsFind, List.find?, hb, hj]
  | cons e rest ih =>
    simp only [bumpPost]
    by_cases he : e.1 = i
    · subst he
      by_cases hj : j = e.1
      · subst hj
        simp [statsFind, List.find?]
      · have hb : (e.1 == j) = false := by simpa using fun h => hj h.symm
        simp [statsFind, List.find?, hb, hj]
    · by_cases hj : j = e.1
      · subst hj
        have hji : ¬e.1 = i := he
        simp [statsFind, List.find?, hji]
      · have hbj : (e.1 == j) = false := by simpa using fun h => hj h.symm
        have hbi : (e.1 == i) = false := by simpa using he
        rw [if_neg he]
        have h1 : statsFind (e :: bumpPost rest i) j = statsFind (bumpPost rest i) j := by
          simp [statsFind, List.find?, hbj]
        have h2 : statsFind (e :: rest) i = statsFind rest i := by
          simp [statsFind, List.find?, hbi]
        have h3 : statsFind (e :: rest) j = statsFind rest j := by
          simp [statsFind, List.find?, hbj]
        rw [h1, h2, h3]
        exact ih

theorem statsFind_bumpThread (l : Stats) (i j : ℕ) :
    statsFind (bumpThread l i) j =
      if j = i then
        some (match statsFind l i with
              | none => (0, 1)
              | some pq => (pq.1, pq.2 + 1))
      else statsFind l j := by
  induction l with
  | nil =>
    by_cases hj : j = i
    · subst hj; simp [bumpThread, statsFind, List.find?]
    · have hb : (i == j) = false := by simpa using fun h => hj h.symm
      simp [bumpThread, statsFind, List.find?, hb, hj]
  | cons e rest ih =>
    simp only [bumpThread]
    by_cases he : e.1 = i
    · subst he
      by_cases hj : j = e.1
      · subst hj
        simp [statsFind, List.find?]
      · have hb : (e.1 == j) = false := by simpa using fun h => hj h.symm
        simp [statsFind, List.find?, hb, hj]
    · by_cases hj : j = e.1
      · subst hj
        have hji : ¬e.1 = i := he
        simp [statsFind, List.find?, hji]
      · have hbj : (e.1 == j) = false := by simpa using fun h => hj h.symm
        have hbi : (e.1 == i) = false := by simpa using he
        rw [if_neg he]
        have h1 : statsFind (e :: bumpThread rest i) j = statsFind (bumpThread rest i) j := by
          simp [statsFind, List.find?, hbj]
        have h2 : statsFind (e :: rest) i = statsFind rest i := by
          simp [statsFind, List.find?, hbi]
        have h3 : statsFind (e :: rest) j = statsFind rest j := by
          simp [statsFind, List.find?, hbj]
        rw [h1, h2, h3]
        exact ih

theorem statsFind_eq_none_of_not_mem_keys {l : Stats} {i : ℕ}
    (h : i ∉ l.map (fun e => e.1)) : statsFind l i = none := by
  unfold statsFind
  rw [Option.map_eq_none', List.find?_eq_none]
  intro e he
  simp only [beq_iff_eq]
  intro hcon
  exact h (by rw [← hcon]; exact List.mem_map_of_mem _ he)

theorem mem_keys_of_statsFind_some {l : Stats} {i : ℕ} {pq : ℕ × ℕ}
    (h : statsFind l i = some pq) : i ∈ l.map (fun e => e.1) := by
  by_contra hcon
  rw [statsFind_eq_none_of_not_mem_keys hcon] at h
  cases h

theorem keys_bumpPost_of_mem {l : Stats} {i : ℕ}
    (h : i ∈ l.map (fun e => e.1)) :
    (bumpPost l i).map (fun e => e.1) = l.map (fun e => e.1) := by
  induction l with
  | nil => cases h
  | cons e rest ih =>
    simp only [bumpPost]
    by_cases he : e.1 = i
    · simp [he]
    · have h1 : i ∈ rest.map (fun e => e.1) := by
        rcases List.mem_map.mp h with ⟨a, ha, hai⟩
        rcases List.mem_cons.mp ha with h2 | h2
        · exact absurd (h2 ▸ hai) he
        · exact List.mem_map.mpr ⟨a, h2, hai⟩
      simp [if_neg he, ih h1]

theorem keys_bumpPost_of_not_mem {l : Stats} {i : ℕ}
    (h : i ∉ l.map (fun e => e.1)) :
    (bumpPost l i).map (fun e => e.1) = l.map (fun e => e.1) ++ [i] := by
  induction l with
  | nil => simp [bumpPost]
  | cons e rest ih =>
    simp only [bumpPost]
    have he : ¬e.1 = i := by
      intro hcon
      exact h (by simp [hcon])
    have h1 : i ∉ rest.map (fun e => e.1) := by
      intro hcon
      exact h (by simp [hcon])
    simp [if_neg he, ih h1]

theorem keys_bumpThread_of_mem {l : Stats} {i : ℕ}
    (h : i ∈ l.map (fun e => e.1)) :
    (bumpThread l i).map (fun e => e.1) = l.map (fun e => e.1) := by
  induction l with
  | nil => cases h
  | cons e rest ih =>
    simp only [bumpThread]
    by_cases he : e.1 = i
    · simp [he]
    · have h1 : i ∈ rest.map (fun e => e.1) := by
        rcases List.mem_map.mp h with ⟨a, ha, hai⟩
        rcases List.mem_cons.mp ha with h2 | h2
        · exact absurd (h2 ▸ hai) he
        · exact List.mem_map.mpr ⟨a, h2, hai⟩
      simp [if_neg he, ih h1]

theorem keys_bumpThread_of_not_mem {l : Stats} {i : ℕ}
    (h : i ∉ l.map (fun e => e.1)) :
    (bumpThread l i).map (fun e => e.1) = l.map (fun e => e.1) ++ [i] := by
  induction l with
  | nil => simp [bumpThread]
  | cons e rest ih =>
    simp only [bumpThread]
    have he : ¬e.1 = i := by
      intro hcon
      exact h (by simp [hcon])
    have h1 : i ∉ rest.map (fun e => e.1) := by
      intro hcon
      exact h (by simp [hcon])
    simp [if_neg he, ih h1]

theorem statsFind_of_mem {l : Stats} {e : ℕ × ℕ × ℕ}
    (hk : (l.map (fun e => e.1)).Pairwise (· ≠ ·)) (h : e ∈ l) :
    statsFind l e.1 = some e.2 := by
  induction l with
  | nil => cases h
  | cons a rest ih =>
    rcases List.mem_cons.mp h with h1 | h1
    · subst h1
      simp [statsFind, List.find?]
    · have hne : ¬a.1 = e.1 := by
        have h2 := (List.pairwise_cons.mp hk).1 e.1 (List.mem_map_of_mem _ h1)
        exact h2
      have hb : (a.1 == e.1) = false := by simpa using hne
      simp only [statsFind, List.find?, hb]
      exact ih (List.pairwise_cons.mp hk).2 h1

end Daily

namespace Daily

open Normalizer (normalize_term)

/-- Relation between the pre-run `terms` table and the table during the run:
the table stays well-formed, existing rows persist unchanged, and every row
is either a pre-run row or was created during the run with
`is_blocked = false`. -/
def StoreExt (base cur : TermStore) : Prop :=
  cur.wf ∧
  (∀ s t, base.lookup s = some t → cur.lookup s = some t) ∧
  (∀ s t, cur.lookup s = some t →
    base.lookup s = some t ∨ (t.is_blocked = false ∧ base.lookup s = none))

theorem StoreExt_refl {base : TermStore} (hw : base.wf) : StoreExt base base :=
  ⟨hw, fun _ _ h => h, fun _ _ h => Or.inl h⟩

theorem StoreExt_step {base cur : TermStore} (h : StoreExt base cur) (s : String) :
    StoreExt base (cur.get_or_create s).2 := by
  refine ⟨get_or_create_wf h.1 s, ?_, ?_⟩
  · intro q u hq
    exact get_or_create_snd_lookup_mono s (h.2.1 q u hq)
  · intro q u hq
    by_cases hqs : q = s
    · subst hqs
      cases hcur : cur.lookup q with
      | some t =>
        rw [get_or_create_hit hcur] at hq
        exact h.2.2 q u hq
      | none =>
        have hu : u = ⟨cur.nextId, false⟩ := by
          have h2 := @get_or_create_snd_lookup_self cur q
          rw [get_or_create_miss hcur] at h2 hq
          rw [hq] at h2
          simpa using h2
        right
        refine ⟨by rw [hu], ?_⟩
        cases hbase : base.lookup q with
        | none => rfl
        | some v =>
          have := h.2.1 q v hbase
          rw [this] at hcur
          cases hcur
    · rw [get_or_create_snd_lookup_other s hqs] at hq
      exact h.2.2 q u hq

theorem occursTok_append (N : List String) (n : String) (s : String) :
    occursTok (N ++ [n]) s = (occursTok N s || (normalize_term n == s)) := by
  unfold occursTok
  rw [List.any_append]
  simp [List.any]

theorem postOccIn_eq_zero_iff (tok : String → Except Unit (List String))
    (s : String) (P : List Crawl.CollectedPost) :
    postOccIn tok s P = 0 ↔ P.any (occursPost tok s) = false := by
  unfold postOccIn
  rw [List.countP_eq_zero, List.any_eq_false]

theorem threadOcc_le_postOcc (tok : String → Except Unit (List String))
    (s : String) : ∀ G : List (String × List Crawl.CollectedPost),
    threadOcc tok s G ≤ postOcc tok s G
  | [] => le_refl _
  | g :: rest => by
    unfold threadOcc postOcc
    rw [List.countP_cons, List.map_cons, List.sum_cons]
    have h1 : (if (g.2.any (occursPost tok s)) = true then 1 else 0) ≤ postOccIn tok s g.2 := by
      split
      · rename_i ha
        rcases List.any_eq_true.mp ha with ⟨a, haa, hpa⟩
        exact List.countP_pos.mpr ⟨a, haa, hpa⟩
      · exact Nat.zero_le _
    have h2 := threadOcc_le_postOcc tok s rest
    unfold threadOcc postOcc at h2
    omega

theorem threadOcc_pos_of_postOcc_pos (tok : String → Except Unit (List String))
    (s : String) : ∀ G : List (String × List Crawl.CollectedPost),
    0 < postOcc tok s G → 0 < threadOcc tok s G
  | [] => by intro h; simpa [postOcc] using h
  | g :: rest => by
    intro h
    unfold postOcc at h
    unfold threadOcc
    rw [List.countP_cons]
    rw [List.map_cons, List.sum_cons] at h
    by_cases hg : 0 < postOccIn tok s g.2
    · rcases List.countP_pos.mp hg with ⟨a, haa, hpa⟩
      have : g.2.any (occursPost tok s) = true := List.any_eq_true.mpr ⟨a, haa, hpa⟩
      simp [this]
    · have h3 : 0 < postOcc tok s rest := by
        simp only [postOcc, postOccIn] at h hg ⊢
        omega
      have h4 := threadOcc_pos_of_postOcc_pos tok s rest h3
      unfold threadOcc at h4
      omega

theorem threadOcc_eq_zero_of_postOcc_eq_zero (tok : String → Except Unit (List String))
    (s : String) (G : List (String × List Crawl.CollectedPost))
    (h : postOcc tok s G = 0) : threadOcc tok s G = 0 := by
  by_contra hcon
  have h1 : 0 < threadOcc tok s G := Nat.pos_of_ne_zero hcon
  have h2 := threadOcc_le_postOcc tok s G
  omega

end Daily

namespace Daily

open Normalizer (normalize_term)

theorem statsFind_isSome_of_mem_keys {l : Stats} {i : ℕ}
    (h : i ∈ l.map (fun e => e.1)) : ∃ pq, statsFind l i = some pq := by
  rcases List.mem_map.mp h with ⟨e, he, hei⟩
  unfold statsFind
  have h2 : (l.find? (fun e => e.1 == i)).isSome := by
    rw [List.find?_isSome]
    exact ⟨e, he, by simpa using hei⟩
  rcases Option.isSome_iff_exists.mp h2 with ⟨a, ha⟩
  exact ⟨a.2, by rw [ha]; rfl⟩

theorem occursTok_append_ne {n s : String} (N : List String)
    (h : normalize_term n ≠ s) : occursTok (N ++ [n]) s = occursTok N s := by
  rw [occursTok_append]
  have hb : (normalize_term n == s) = false := by simpa using h
  rw [hb, Bool.or_false]

theorem occursTok_append_self {n s : String} (N : List String)
    (h : normalize_term n = s) : occursTok (N ++ [n]) s = true := by
  rw [occursTok_append]
  have hb : (normalize_term n == s) = true := by simpa using h
  rw [hb, Bool.or_true]

theorem occursTok_append_of_occurs {n s : String} {N : List String}
    (h : occursTok N s = true) : occursTok (N ++ [n]) s = true := by
  rw [occursTok_append, h, Bool.true_or]

/-- `processNoun` when the token normalizes to the reject sentinel. -/
theorem processNoun_reject (st : AggSt) (n : String) (h : normalize_term n = "") :
    processNoun st n =
      { st with metrics := { st.metrics with
          total_tokens := st.metrics.total_tokens + 1,
          filtered_tokens := st.metrics.filtered_tokens + 1 } } := by
  simp [processNoun, h]

/-- `processNoun` when the token resolves to a blocked term. -/
theorem processNoun_blocked (st : AggSt) (n : String) (h0 : ¬normalize_term n = "")
    (hb : (st.store.get_or_create (normalize_term n)).1.is_blocked = true) :
    processNoun st n =
      { st with
        store := (st.store.get_or_create (normalize_term n)).2,
        metrics := { st.metrics with
          total_tokens := st.metrics.total_tokens + 1,
          filtered_tokens := st.metrics.filtered_tokens + 1 } } := by
  simp [processNoun, h0, hb]

/-- `processNoun` when the term was already seen in both the post and the
thread. -/
theorem processNoun_seen_seen (st : AggSt) (n : String) (h0 : ¬normalize_term n = "")
    (hb : (st.store.get_or_create (normalize_term n)).1.is_blocked = false)
    (hp : (st.store.get_or_create (normalize_term n)).1.term_id ∈ st.postSeen)
    (ht : (st.store.get_or_create (normalize_term n)).1.term_id ∈ st.threadSeen) :
    processNoun st n =
      { st with
        store := (st.store.get_or_create (normalize_term n)).2,
        metrics := { st.metrics with
          total_tokens := st.metrics.total_tokens + 1 } } := by
  simp [processNoun, h0, hb, hp, ht]

/-- `processNoun` when the term is new to the post but already seen in the
thread. -/
theorem processNoun_post_only (st : AggSt) (n : String) (h0 : ¬normalize_term n = "")
    (hb : (st.store.get_or_create (normalize_term n)).1.is_blocked = false)
    (hp : (st.store.get_or_create (normalize_term n)).1.term_id ∉ st.postSeen)
    (ht : (st.store.get_or_create (normalize_term n)).1.term_id ∈ st.threadSeen) :
    processNoun st n =
      { st with
        store := (st.store.get_or_create (normalize_term n)).2,
        metrics := { st.metrics with
          total_tokens := st.metrics.total_tokens + 1 },
        postSeen := st.postSeen ++ [(st.store.get_or_create (normalize_term n)).1.term_id],
        stats := bumpPost st.stats (st.store.get_or_create (normalize_term n)).1.term_id } := by
  simp [processNoun, h0, hb, hp, ht]

/-- `processNoun` when the term is new to both the post and the thread. -/
theorem processNoun_both_new (st : AggSt) (n : String) (h0 : ¬normalize_term n = "")
    (hb : (st.store.get_or_create (normalize_term n)).1.is_blocked = false)
    (hp : (st.store.get_or_create (normalize_term n)).1.term_id ∉ st.postSeen)
    (ht : (st.store.get_or_create (normalize_term n)).1.term_id ∉ st.threadSeen) :
    processNoun st n =
      { st with
        store := (st.store.get_or_create (normalize_term n)).2,
        metrics := { st.metrics with
          total_tokens := st.metrics.total_tokens + 1 },
        postSeen := st.postSeen ++ [(st.store.get_or_create (normalize_term n)).1.term_id],
        threadSeen := st.threadSeen ++ [(st.store.get_or_create (normalize_term n)).1.term_id],
        stats := bumpThread (bumpPost st.stats (st.store.get_or_create (normalize_term n)).1.term_id)
          (st.store.get_or_create (normalize_term n)).1.term_id } := by
  simp [processNoun, h0, hb, hp, ht]

/-- `processNoun` when the term was seen in the post but not the thread
(cannot occur from a well-formed state, but the code shape allows it). -/
theorem processNoun_thread_only (st : AggSt) (n : String) (h0 : ¬normalize_term n = "")
    (hb : (st.store.get_or_create (normalize_term n)).1.is_blocked = false)
    (hp : (st.store.get_or_create (normalize_term n)).1.term_id ∈ st.postSeen)
    (ht : (st.store.get_or_create (normalize_term n)).1.term_id ∉ st.threadSeen) :
    processNoun st n =
      { st with
        store := (st.store.get_or_create (normalize_term n)).2,
        metrics := { st.metrics with
          total_tokens := st.metrics.total_tokens + 1 },
        threadSeen := st.threadSeen ++ [(st.store.get_or_create (normalize_term n)).1.term_id],
        stats := bumpThread st.stats (st.store.get_or_create (normalize_term n)).1.term_id } := by
  simp [processNoun, h0, hb, hp, ht]

end Daily

namespace Daily

open Normalizer (normalize_term)

/-- Post-level occurrence count for normalized string `s` at a traversal
position: completed thread groups `G`, completed posts `P` of the current
thread, completed nouns `N` of the current post. -/
def postCnt (tok : String → Except Unit (List String))
    (G : List (String × List Crawl.CollectedPost)) (P : List Crawl.CollectedPost)
    (N : List String) (s : String) : ℕ :=
  postOcc tok s G + postOccIn tok s P + (if occursTok N s then 1 else 0)

/-- Thread-level occurrence count at a traversal position. -/
def threadCnt (tok : String → Except Unit (List String))
    (G : List (String × List Crawl.CollectedPost)) (P : List Crawl.CollectedPost)
    (N : List String) (s : String) : ℕ :=
  threadOcc tok s G + (if (P.any (occursPost tok s) || occursTok N s) then 1 else 0)

/-- Filtered-token count at a traversal position. -/
def filteredCnt (tok : String → Except Unit (List String)) (store₀ : TermStore)
    (G : List (String × List Crawl.CollectedPost)) (P : List Crawl.CollectedPost)
    (N : List String) : ℕ :=
  (G.map (fun g => (g.2.map (filteredIn tok store₀)).sum)).sum +
    (P.map (filteredIn tok store₀)).sum + N.countP (isFilteredTok store₀)

/-- The loop invariant of `process_posts` at a position inside the noun loop:
`G` thread groups are done, `P` posts of the current thread are done, `N`
nouns of the current post are done. -/
structure NInv (tok : String → Except Unit (List String)) (store₀ : TermStore)
    (G : List (String × List Crawl.CollectedPost)) (P : List Crawl.CollectedPost)
    (N : List String) (st : AggSt) : Prop where
  ext : StoreExt store₀ st.store
  chars : ∀ s t, s ≠ "" → st.store.lookup s = some t → t.is_blocked = false →
    statsFind st.stats t.term_id =
      if 0 < postCnt tok G P N s then
        some (postCnt tok G P N s, threadCnt tok G P N s)
      else none
  keys : (st.stats.map (fun e => e.1)).Pairwise (· ≠ ·)
  covers : ∀ i pq, statsFind st.stats i = some pq →
    ∃ s t, s ≠ "" ∧ st.store.lookup s = some t ∧ t.is_blocked = false ∧ t.term_id = i
  unseen : ∀ s, s ≠ "" → st.store.lookup s = none → postCnt tok G P N s = 0
  postSeenSpec : ∀ i, i ∈ st.postSeen ↔
    ∃ s t, s ≠ "" ∧ st.store.lookup s = some t ∧ t.is_blocked = false ∧
      t.term_id = i ∧ occursTok N s = true
  threadSeenSpec : ∀ i, i ∈ st.threadSeen ↔
    ∃ s t, s ≠ "" ∧ st.store.lookup s = some t ∧ t.is_blocked = false ∧
      t.term_id = i ∧ (P.any (occursPost tok s) || occursTok N s) = true
  filtered : st.metrics.filtered_tokens = filteredCnt tok store₀ G P N

end Daily

namespace Daily

open Normalizer (normalize_term)

theorem orOcc_append_mono {x : Bool} {N : List String} {n s : String}
    (h : (x || occursTok N s) = true) : (x || occursTok (N ++ [n]) s) = true := by
  cases hx : x
  · rw [hx, Bool.false_or] at h
    rw [Bool.false_or]
    exact occursTok_append_of_occurs h
  · rw [Bool.true_or]

theorem NInv_step {tok : String → Except Unit (List String)} {store₀ : TermStore}
    {G : List (String × List Crawl.CollectedPost)} {P : List Crawl.CollectedPost}
    {N : List String} {st : AggSt}
    (h : NInv tok store₀ G P N st) (n : String) :
    NInv tok store₀ G P (N ++ [n]) (processNoun st n) := by
  by_cases h0 : normalize_term n = ""
  -- ───────────────────────── rejected token ─────────────────────────
  · rw [processNoun_reject st n h0]
    have hne : ∀ s' : String, s' ≠ "" → normalize_term n ≠ s' := by
      intro s' hs' hc
      exact hs' (h0 ▸ hc).symm
    refine ⟨h.ext, ?_, h.keys, h.covers, ?_, ?_, ?_, ?_⟩
    · intro s t hs hl hb
      simpa [postCnt, threadCnt, occursTok_append_ne N (hne s hs)] using h.chars s t hs hl hb
    · intro s hs hl
      simpa [postCnt, occursTok_append_ne N (hne s hs)] using h.unseen s hs hl
    · intro i
      rw [show ({ st with metrics := { st.metrics with
            total_tokens := st.metrics.total_tokens + 1,
            filtered_tokens := st.metrics.filtered_tokens + 1 } } : AggSt).postSeen = st.postSeen from rfl,
        h.postSeenSpec i]
      constructor
      · rintro ⟨s, t, hs, hl, hb, hid, hocc⟩
        exact ⟨s, t, hs, hl, hb, hid, occursTok_append_of_occurs hocc⟩
      · rintro ⟨s, t, hs, hl, hb, hid, hocc⟩
        exact ⟨s, t, hs, hl, hb, hid, by rwa [occursTok_append_ne N (hne s hs)] at hocc⟩
    · intro i
      rw [show ({ st with metrics := { st.metrics with
            total_tokens := st.metrics.total_tokens + 1,
            filtered_tokens := st.metrics.filtered_tokens + 1 } } : AggSt).threadSeen = st.threadSeen from rfl,
        h.threadSeenSpec i]
      constructor
      · rintro ⟨s, t, hs, hl, hb, hid, hocc⟩
        exact ⟨s, t, hs, hl, hb, hid, orOcc_append_mono hocc⟩
      · rintro ⟨s, t, hs, hl, hb, hid, hocc⟩
        exact ⟨s, t, hs, hl, hb, hid, by rwa [occursTok_append_ne N (hne s hs)] at hocc⟩
    · have hft : isFilteredTok store₀ n = true := by
        simp [isFilteredTok, h0]
      show st.metrics.filtered_tokens + 1 = filteredCnt tok store₀ G P (N ++ [n])
      rw [h.filtered]
      simp [filteredCnt, List.countP_append, List.countP_cons, hft]
      omega
  -- ───────────────────────── non-empty normalization ─────────────────────────
  · cases hlook : st.store.lookup (normalize_term n) with
    | some t =>
      have hgc : st.store.get_or_create (normalize_term n) = (t, st.store) :=
        get_or_create_hit hlook
      -- the resolved term of any non-blocked witness string equals (s', t')
      have hwitne : ∀ s' t', s' ≠ "" → st.store.lookup s' = some t' →
          t'.is_blocked = false → t.is_blocked = true → normalize_term n ≠ s' := by
        intro s' t' hs' hl' hb' hbt hc
        rw [← hc] at hl'
        rw [hlook] at hl'
        cases hl'
        rw [hbt] at hb'
        cases hb'
      by_cases hb : t.is_blocked
      -- ──────────────── blocked term ────────────────
      · have hst : processNoun st n =
            { st with metrics := { st.metrics with
                total_tokens := st.metrics.total_tokens + 1,
                filtered_tokens := st.metrics.filtered_tokens + 1 } } := by
          rw [processNoun_blocked st n h0 (by rw [hgc]; exact hb)]
          rw [hgc]
        rw [hst]
        have hne : ∀ s' t', s' ≠ "" → st.store.lookup s' = some t' →
            t'.is_blocked = false → normalize_term n ≠ s' := by
          intro s' t' hs' hl' hb'
          exact hwitne s' t' hs' hl' hb' hb
        refine ⟨h.ext, ?_, h.keys, h.covers, ?_, ?_, ?_, ?_⟩
        · intro s t' hs hl hb'
          simpa [postCnt, threadCnt, occursTok_append_ne N (hne s t' hs hl hb')]
            using h.chars s t' hs hl hb'
        · intro s hs hl
          have hne2 : normalize_term n ≠ s := by
            intro hc
            rw [← hc] at hl
            rw [hlook] at hl
            cases hl
          simpa [postCnt, occursTok_append_ne N hne2] using h.unseen s hs hl
        · intro i
          rw [show ({ st with metrics := { st.metrics with
                total_tokens := st.metrics.total_tokens + 1,
                filtered_tokens := st.metrics.filtered_tokens + 1 } } : AggSt).postSeen = st.postSeen from rfl,
            h.postSeenSpec i]
          constructor
          · rintro ⟨s, t', hs, hl, hb', hid, hocc⟩
            exact ⟨s, t', hs, hl, hb', hid, occursTok_append_of_occurs hocc⟩
          · rintro ⟨s, t', hs, hl, hb', hid, hocc⟩
            exact ⟨s, t', hs, hl, hb', hid,
              by rwa [occursTok_append_ne N (hne s t' hs hl hb')] at hocc⟩
        · intro i
          rw [show ({ st with metrics := { st.metrics with
                total_tokens := st.metrics.total_tokens + 1,
                filtered_tokens := st.metrics.filtered_tokens + 1 } } : AggSt).threadSeen = st.threadSeen from rfl,
            h.threadSeenSpec i]
          constructor
          · rintro ⟨s, t', hs, hl, hb', hid, hocc⟩
            exact ⟨s, t', hs, hl, hb', hid, orOcc_append_mono hocc⟩
          · rintro ⟨s, t', hs, hl, hb', hid, hocc⟩
            exact ⟨s, t', hs, hl, hb', hid,
              by rwa [occursTok_append_ne N (hne s t' hs hl hb')] at hocc⟩
        · have hbase : store₀.lookup (normalize_term n) = some t := by
            rcases h.ext.2.2 _ t hlook with h1 | h1
            · exact h1
            · rw [h1.1] at hb
              cases hb
          have hft : isFilteredTok store₀ n = true := by
            simp [isFilteredTok, hbase, hb]
          show st.metrics.filtered_tokens + 1 = filteredCnt tok store₀ G P (N ++ [n])
          rw [h.filtered]
          simp [filteredCnt, List.countP_append, List.countP_cons, hft]
          omega
      -- ──────────────── non-blocked existing term ────────────────
      · have hbf : t.is_blocked = false := by simpa using hb
        -- base store does not see this token as filtered
        have hft : isFilteredTok store₀ n = false := by
          rcases h.ext.2.2 _ t hlook with h1 | h1
          · simp [isFilteredTok, h0, h1, hbf]
          · simp [isFilteredTok, h0, h1.2]
        -- identify witnesses for t.term_id with the current string
        have hwit : ∀ s' t', s' ≠ "" → st.store.lookup s' = some t' →
            t'.is_blocked = false → t'.term_id = t.term_id →
            s' = normalize_term n ∧ t' = t := by
          intro s' t' hs' hl' hb' hid
          by_cases hss : s' = normalize_term n
          · subst hss
            rw [hlook] at hl'
            injection hl' with hh
            exact ⟨rfl, hh.symm⟩
          · exact absurd hid (wf_id_injective h.ext.1 hl' hlook hss)
        by_cases hpost : t.term_id ∈ st.postSeen
        · -- seen in this post already: occursTok N (normalize_term n) = true
          have hoccN : occursTok N (normalize_term n) = true := by
            rcases (h.postSeenSpec t.term_id).mp hpost with ⟨s', t', hs', hl', hb', hid, hocc⟩
            rcases hwit s' t' hs' hl' hb' hid with ⟨hseq, -⟩
            rwa [hseq] at hocc
          have hthread : t.term_id ∈ st.threadSeen := by
            refine (h.threadSeenSpec t.term_id).mpr ⟨normalize_term n, t, h0, hlook, hbf, rfl, ?_⟩
            rw [hoccN, Bool.or_true]
          have hst : processNoun st n =
              { st with metrics := { st.metrics with
                  total_tokens := st.metrics.total_tokens + 1 } } := by
            rw [processNoun_seen_seen st n h0 (by rw [hgc]; exact hbf)
              (by rw [hgc]; exact hpost) (by rw [hgc]; exact hthread)]
            rw [hgc]
          rw [hst]
          -- counts are unchanged for every string
          have hocc_eq : ∀ s', s' ≠ "" → occursTok (N ++ [n]) s' = occursTok N s' := by
            intro s' hs'
            by_cases hss : normalize_term n = s'
            · rw [occursTok_append_self N hss, ← hss, hoccN]
            · exact occursTok_append_ne N hss
          refine ⟨h.ext, ?_, h.keys, h.covers, ?_, ?_, ?_, ?_⟩
          · intro s t' hs hl hb'
            simpa [postCnt, threadCnt, hocc_eq s hs] using h.chars s t' hs hl hb'
          · intro s hs hl
            simpa [postCnt, hocc_eq s hs] using h.unseen s hs hl
          · intro i
            rw [show ({ st with metrics := { st.metrics with
                  total_tokens := st.metrics.total_tokens + 1 } } : AggSt).postSeen = st.postSeen from rfl,
              h.postSeenSpec i]
            constructor
            · rintro ⟨s, t', hs, hl, hb', hid, hocc⟩
              exact ⟨s, t', hs, hl, hb', hid, occursTok_append_of_occurs hocc⟩
            · rintro ⟨s, t', hs, hl, hb', hid, hocc⟩
              exact ⟨s, t', hs, hl, hb', hid, by rwa [hocc_eq s hs] at hocc⟩
          · intro i
            rw [show ({ st with metrics := { st.metrics with
                  total_tokens := st.metrics.total_tokens + 1 } } : AggSt).threadSeen = st.threadSeen from rfl,
              h.threadSeenSpec i]
            constructor
            · rintro ⟨s, t', hs, hl, hb', hid, hocc⟩
              exact ⟨s, t', hs, hl, hb', hid, orOcc_append_mono hocc⟩
            · rintro ⟨s, t', hs, hl, hb', hid, hocc⟩
              exact ⟨s, t', hs, hl, hb', hid, by rwa [hocc_eq s hs] at hocc⟩
          · show st.metrics.filtered_tokens = filteredCnt tok store₀ G P (N ++ [n])
            rw [h.filtered]
            simp [filteredCnt, List.countP_append, List.countP_cons, hft]
        · -- not yet seen in this post
          have hoccN : occursTok N (normalize_term n) = false := by
            by_contra hcon
            have hocc := Bool.of_not_eq_false hcon
            exact hpost ((h.postSeenSpec t.term_id).mpr
              ⟨normalize_term n, t, h0, hlook, hbf, rfl, hocc⟩)
          by_cases hthread : t.term_id ∈ st.threadSeen
          · -- seen earlier in this thread: the current thread already counted
            have hPany : P.any (occursPost tok (normalize_term n)) = true := by
              rcases (h.threadSeenSpec t.term_id).mp hthread with ⟨s', t', hs', hl', hb', hid, hocc⟩
              rcases hwit s' t' hs' hl' hb' hid with ⟨hseq, -⟩
              rw [hseq] at hocc
              rcases Bool.or_eq_true_iff.mp hocc with h1 | h1
              · exact h1
              · rw [hoccN] at h1
                cases h1
            have hPC : 0 < postCnt tok G P N (normalize_term n) := by
              rcases List.any_eq_true.mp hPany with ⟨a, ha, hpa⟩
              have : 0 < postOccIn tok (normalize_term n) P := List.countP_pos.mpr ⟨a, ha, hpa⟩
              simp only [postCnt]
              omega
            have hsome : statsFind st.stats t.term_id =
                some (postCnt tok G P N (normalize_term n), threadCnt tok G P N (normalize_term n)) := by
              rw [h.chars (normalize_term n) t h0 hlook hbf, if_pos hPC]
            have hst : processNoun st n =
                { st with
                  metrics := { st.metrics with total_tokens := st.metrics.total_tokens + 1 },
                  postSeen := st.postSeen ++ [t.term_id],
                  stats := bumpPost st.stats t.term_id } := by
              rw [processNoun_post_only st n h0 (by rw [hgc]; exact hbf)
                (by rw [hgc]; exact hpost) (by rw [hgc]; exact hthread)]
              rw [hgc]
            rw [hst]
            have hocc_self : occursTok (N ++ [n]) (normalize_term n) = true :=
              occursTok_append_self N rfl
            refine ⟨h.ext, ?_, ?_, ?_, ?_, ?_, ?_, ?_⟩
            · intro s t' hs hl hb'
              by_cases hss : s = normalize_term n
              · subst hss
                have ht' : t' = t := by
                  rw [hlook] at hl
                  injection hl with hh
                  exact hh.symm
                subst ht'
                rw [statsFind_bumpPost, if_pos rfl, hsome]
                have hPC' : postCnt tok G P (N ++ [n]) (normalize_term n) =
                    postCnt tok G P N (normalize_term n) + 1 := by
                  simp [postCnt, hocc_self, hoccN]
                have hTC' : threadCnt tok G P (N ++ [n]) (normalize_term n) =
                    threadCnt tok G P N (normalize_term n) := by
                  simp [threadCnt, hocc_self, hoccN, hPany]
                rw [hPC', hTC', if_pos (by omega)]
              · have hne2 : normalize_term n ≠ s := fun hc => hss hc.symm
                have hid : t'.term_id ≠ t.term_id := by
                  intro hc
                  rcases hwit s t' hs hl hb' hc with ⟨hseq, -⟩
                  exact hss hseq
                rw [statsFind_bumpPost, if_neg hid]
                simpa [postCnt, threadCnt, occursTok_append_ne N hne2] using h.chars s t' hs hl hb'
            · rw [show (bumpPost st.stats t.term_id).map (fun e => e.1) = st.stats.map (fun e => e.1) from
                keys_bumpPost_of_mem (mem_keys_of_statsFind_some hsome)]
              exact h.keys
            · intro i pq hfind
              rw [statsFind_bumpPost] at hfind
              by_cases hii : i = t.term_id
              · exact ⟨normalize_term n, t, h0, hlook, hbf, hii.symm⟩
              · rw [if_neg hii] at hfind
                exact h.covers i pq hfind
            · intro s hs hl
              have hne2 : normalize_term n ≠ s := by
                intro hc
                rw [← hc, hlook] at hl
                cases hl
              simpa [postCnt, occursTok_append_ne N hne2] using h.unseen s hs hl
            · intro i
              show i ∈ st.postSeen ++ [t.term_id] ↔ _
              rw [List.mem_append, List.mem_singleton, h.postSeenSpec i]
              constructor
              · rintro (⟨s, t', hs, hl, hb', hid, hocc⟩ | hi)
                · exact ⟨s, t', hs, hl, hb', hid, occursTok_append_of_occurs hocc⟩
                · exact ⟨normalize_term n, t, h0, hlook, hbf, hi.symm, hocc_self⟩
              · rintro ⟨s, t', hs, hl, hb', hid, hocc⟩
                by_cases hss : s = normalize_term n
                · subst hss
                  have ht' : t' = t := by
                    rw [hlook] at hl
                    injection hl with hh
                    exact hh.symm
                  right
                  rw [← hid, ht']
                · left
                  have hne2 : normalize_term n ≠ s := fun hc => hss hc.symm
                  exact ⟨s, t', hs, hl, hb', hid, by rwa [occursTok_append_ne N hne2] at hocc⟩
            · intro i
              show i ∈ st.threadSeen ↔ _
              rw [h.threadSeenSpec i]
              constructor
              · rintro ⟨s, t', hs, hl, hb', hid, hocc⟩
                exact ⟨s, t', hs, hl, hb', hid, orOcc_append_mono hocc⟩
              · rintro ⟨s, t', hs, hl, hb', hid, hocc⟩
                by_cases hss : s = normalize_term n
                · subst hss
                  have ht' : t' = t := by
                    rw [hlook] at hl
                    injection hl with hh
                    exact hh.symm
                  refine ⟨normalize_term n, t', hs, hl, hb', hid, ?_⟩
                  rw [hPany, Bool.true_or]
                · have hne2 : normalize_term n ≠ s := fun hc => hss hc.symm
                  exact ⟨s, t', hs, hl, hb', hid, by rwa [occursTok_append_ne N hne2] at hocc⟩
            · show st.metrics.filtered_tokens = filteredCnt tok store₀ G P (N ++ [n])
              rw [h.filtered]
              simp [filteredCnt, List.countP_append, List.countP_cons, hft]
          · -- new to both post and thread
            have hPany : P.any (occursPost tok (normalize_term n)) = false := by
              by_contra hcon
              have hocc := Bool.of_not_eq_false hcon
              exact hthread ((h.threadSeenSpec t.term_id).mpr
                ⟨normalize_term n, t, h0, hlook, hbf, rfl, by rw [hocc, Bool.true_or]⟩)
            have hst : processNoun st n =
                { st with
                  metrics := { st.metrics with total_tokens := st.metrics.total_tokens + 1 },
                  postSeen := st.postSeen ++ [t.term_id],
                  threadSeen := st.threadSeen ++ [t.term_id],
                  stats := bumpThread (bumpPost st.stats t.term_id) t.term_id } := by
              rw [processNoun_both_new st n h0 (by rw [hgc]; exact hbf)
                (by rw [hgc]; exact hpost) (by rw [hgc]; exact hthread)]
              rw [hgc]
            rw [hst]
            have hocc_self : occursTok (N ++ [n]) (normalize_term n) = true :=
              occursTok_append_self N rfl
            have hPC' : postCnt tok G P (N ++ [n]) (normalize_term n) =
                postCnt tok G P N (normalize_term n) + 1 := by
              simp [postCnt, hocc_self, hoccN]
            have hTC' : threadCnt tok G P (N ++ [n]) (normalize_term n) =
                threadCnt tok G P N (normalize_term n) + 1 := by
              simp [threadCnt, hocc_self, hoccN, hPany]
            refine ⟨h.ext, ?_, ?_, ?_, ?_, ?_, ?_, ?_⟩
            · intro s t' hs hl hb'
              by_cases hss : s = normalize_term n
              · subst hss
                have ht2 : t' = t := by
                  rw [hlook] at hl
                  injection hl with hh
                  exact hh.symm
                subst ht2
                rw [statsFind_bumpThread, if_pos rfl, statsFind_bumpPost, if_pos rfl]
                cases hsf : statsFind st.stats t'.term_id with
                | none =>
                  have hch := h.chars (normalize_term n) t' hs hlook hbf
                  rw [hsf] at hch
                  have hPC0 : postCnt tok G P N (normalize_term n) = 0 := by
                    by_cases hp : 0 < postCnt tok G P N (normalize_term n)
                    · rw [if_pos hp] at hch
                      cases hch
                    · omega
                  have hTC0 : threadCnt tok G P N (normalize_term n) = 0 := by
                    have h1 : postOcc tok (normalize_term n) G = 0 ∧
                        postOccIn tok (normalize_term n) P = 0 := by
                      simp only [postCnt] at hPC0
                      omega
                    have h2 : threadOcc tok (normalize_term n) G = 0 :=
                      threadOcc_eq_zero_of_postOcc_eq_zero tok (normalize_term n) G h1.1
                    simp [threadCnt, h2, hPany, hoccN]
                  rw [hPC', hTC', hPC0, hTC0]
                  rfl
                | some pq =>
                  have hch := h.chars (normalize_term n) t' hs hlook hbf
                  rw [hsf] at hch
                  have hp : 0 < postCnt tok G P N (normalize_term n) := by
                    by_cases hp : 0 < postCnt tok G P N (normalize_term n)
                    · exact hp
                    · rw [if_neg hp] at hch
                      cases hch
                  rw [if_pos hp] at hch
                  have hpq : pq = (postCnt tok G P N (normalize_term n),
                      threadCnt tok G P N (normalize_term n)) := by
                    injection hch
                  rw [hPC', hTC', hpq, if_pos (by omega)]
              · have hne2 : normalize_term n ≠ s := fun hc => hss hc.symm
                have hid : t'.term_id ≠ t.term_id := by
                  intro hc
                  rcases hwit s t' hs hl hb' hc with ⟨hseq, -⟩
                  exact hss hseq
                rw [statsFind_bumpThread, if_neg hid, statsFind_bumpPost, if_neg hid]
                simpa [postCnt, threadCnt, occursTok_append_ne N hne2] using h.chars s t' hs hl hb'
            · cases hsf : statsFind st.stats t.term_id with
              | some pq =>
                have hm := mem_keys_of_statsFind_some hsf
                have hk1 := keys_bumpPost_of_mem hm
                have hm2 : t.term_id ∈ (bumpPost st.stats t.term_id).map (fun e => e.1) := by
                  rw [hk1]; exact hm
                rw [keys_bumpThread_of_mem hm2, hk1]
                exact h.keys
              | none =>
                have hnm : t.term_id ∉ st.stats.map (fun e => e.1) := by
                  intro hm
                  rcases statsFind_isSome_of_mem_keys hm with ⟨pq, hpq⟩
                  rw [hsf] at hpq
                  cases hpq
                have hk1 := keys_bumpPost_of_not_mem hnm
                have hm2 : t.term_id ∈ (bumpPost st.stats t.term_id).map (fun e => e.1) := by
                  rw [hk1]; simp
                rw [keys_bumpThread_of_mem hm2, hk1]
                rw [List.pairwise_append]
                refine ⟨h.keys, by simp, ?_⟩
                intro a ha b hb2
                simp only [List.mem_singleton] at hb2
                subst hb2
                intro hcon
                exact hnm (hcon ▸ ha)
            · intro i pq hfind
              rw [statsFind_bumpThread] at hfind
              by_cases hii : i = t.term_id
              · exact ⟨normalize_term n, t, h0, hlook, hbf, hii.symm⟩
              · rw [if_neg hii, statsFind_bumpPost, if_neg hii] at hfind
                exact h.covers i pq hfind
            · intro s hs hl
              have hne2 : normalize_term n ≠ s := by
                intro hc
                rw [← hc, hlook] at hl
                cases hl
              simpa [postCnt, occursTok_append_ne N hne2] using h.unseen s hs hl
            · intro i
              show i ∈ st.postSeen ++ [t.term_id] ↔ _
              rw [List.mem_append, List.mem_singleton, h.postSeenSpec i]
              constructor
              · rintro (⟨s, t', hs, hl, hb', hid, hocc⟩ | hi)
                · exact ⟨s, t', hs, hl, hb', hid, occursTok_append_of_occurs hocc⟩
                · exact ⟨normalize_term n, t, h0, hlook, hbf, hi.symm, hocc_self⟩
              · rintro ⟨s, t', hs, hl, hb', hid, hocc⟩
                by_cases hss : s = normalize_term n
                · subst hss
                  have ht' : t' = t := by
                    rw [hlook] at hl
                    injection hl with hh
                    exact hh.symm
                  right
                  rw [← hid, ht']
                · left
                  have hne2 : normalize_term n ≠ s := fun hc => hss hc.symm
                  exact ⟨s, t', hs, hl, hb', hid, by rwa [occursTok_append_ne N hne2] at hocc⟩
            · intro i
              show i ∈ st.threadSeen ++ [t.term_id] ↔ _
              rw [List.mem_append, List.mem_singleton, h.threadSeenSpec i]
              constructor
              · rintro (⟨s, t', hs, hl, hb', hid, hocc⟩ | hi)
                · exact ⟨s, t', hs, hl, hb', hid, orOcc_append_mono hocc⟩
                · exact ⟨normalize_term n, t, h0, hlook, hbf, hi.symm,
                    by rw [hocc_self, Bool.or_true]⟩
              · rintro ⟨s, t', hs, hl, hb', hid, hocc⟩
                by_cases hss : s = normalize_term n
                · subst hss
                  have ht' : t' = t := by
                    rw [hlook] at hl
                    injection hl with hh
                    exact hh.symm
                  right
                  rw [← hid, ht']
                · left
                  have hne2 : normalize_term n ≠ s := fun hc => hss hc.symm
                  exact ⟨s, t', hs, hl, hb', hid, by rwa [occursTok_append_ne N hne2] at hocc⟩
            · show st.metrics.filtered_tokens = filteredCnt tok store₀ G P (N ++ [n])
              rw [h.filtered]
              simp [filteredCnt, List.countP_append, List.countP_cons, hft]
    | none =>
      -- ──────────────── term created during this run ────────────────
      have hgc := get_or_create_miss hlook
      have hself : (st.store.get_or_create (normalize_term n)).2.lookup (normalize_term n) =
          some ⟨st.store.nextId, false⟩ := by
        rw [get_or_create_snd_lookup_self]
        rw [hgc]
      have hother : ∀ s', s' ≠ normalize_term n →
          (st.store.get_or_create (normalize_term n)).2.lookup s' = st.store.lookup s' :=
        fun s' hs' => get_or_create_snd_lookup_other _ hs'
      have hmono : ∀ s' u, st.store.lookup s' = some u →
          (st.store.get_or_create (normalize_term n)).2.lookup s' = some u :=
        fun s' u hu => get_or_create_snd_lookup_mono _ hu
      have hext' : StoreExt store₀ (st.store.get_or_create (normalize_term n)).2 :=
        StoreExt_step h.ext (normalize_term n)
      have hPCN0 : postCnt tok G P N (normalize_term n) = 0 := h.unseen _ h0 hlook
      have hcomp : postOcc tok (normalize_term n) G = 0 ∧
          postOccIn tok (normalize_term n) P = 0 ∧
          occursTok N (normalize_term n) = false := by
        simp only [postCnt] at hPCN0
        refine ⟨by omega, by omega, ?_⟩
        by_cases hc : occursTok N (normalize_term n) = true
        · rw [if_pos hc] at hPCN0
          omega
        · simpa using hc
      have hPany : P.any (occursPost tok (normalize_term n)) = false :=
        (postOccIn_eq_zero_iff tok _ P).mp hcomp.2.1
      have hTOcc0 : threadOcc tok (normalize_term n) G = 0 :=
        threadOcc_eq_zero_of_postOcc_eq_zero tok _ G hcomp.1
      have hidlt : ∀ s' t', st.store.lookup s' = some t' → t'.term_id < st.store.nextId :=
        fun s' t' hl' => wf_lookup_id_lt h.ext.1 hl'
      have hnpost : st.store.nextId ∉ st.postSeen := by
        intro hm
        rcases (h.postSeenSpec _).mp hm with ⟨s', t', hs', hl', hb', hid, hocc⟩
        have := hidlt s' t' hl'
        omega
      have hnthread : st.store.nextId ∉ st.threadSeen := by
        intro hm
        rcases (h.threadSeenSpec _).mp hm with ⟨s', t', hs', hl', hb', hid, hocc⟩
        have := hidlt s' t' hl'
        omega
      have hsfnone : statsFind st.stats st.store.nextId = none := by
        cases hsf : statsFind st.stats st.store.nextId with
        | none => rfl
        | some pq =>
          rcases h.covers _ pq hsf with ⟨s', t', hs', hl', hb', hid⟩
          have := hidlt s' t' hl'
          omega
      have hft : isFilteredTok store₀ n = false := by
        have hb0 : store₀.lookup (normalize_term n) = none := by
          cases hb0 : store₀.lookup (normalize_term n) with
          | none => rfl
          | some u =>
            have := h.ext.2.1 _ u hb0
            rw [hlook] at this
            cases this
        simp [isFilteredTok, h0, hb0]
      have hst : processNoun st n =
          { st with
            store := (st.store.get_or_create (normalize_term n)).2,
            metrics := { st.metrics with total_tokens := st.metrics.total_tokens + 1 },
            postSeen := st.postSeen ++ [st.store.nextId],
            threadSeen := st.threadSeen ++ [st.store.nextId],
            stats := bumpThread (bumpPost st.stats st.store.nextId) st.store.nextId } := by
        rw [processNoun_both_new st n h0 (by rw [hgc]) (by rw [hgc]; exact hnpost)
          (by rw [hgc]; exact hnthread)]
        rw [hgc]
      rw [hst]
      have hocc_self : occursTok (N ++ [n]) (normalize_term n) = true :=
        occursTok_append_self N rfl
      have hPC1 : postCnt tok G P (N ++ [n]) (normalize_term n) = 1 := by
        simp [postCnt, hcomp.1, hcomp.2.1, hocc_self]
      have hTC1 : threadCnt tok G P (N ++ [n]) (normalize_term n) = 1 := by
        simp [threadCnt, hTOcc0, hPany, hocc_self]
      refine ⟨hext', ?_, ?_, ?_, ?_, ?_, ?_, ?_⟩
      · intro s t' hs hl hb'
        by_cases hss : s = normalize_term n
        · subst hss
          rw [hself] at hl
          have ht' : t' = ⟨st.store.nextId, false⟩ := by
            injection hl with hh
            exact hh.symm
          subst ht'
          rw [statsFind_bumpThread, if_pos rfl, statsFind_bumpPost, if_pos rfl, hsfnone,
            hPC1, hTC1]
          rfl
        · have hne2 : normalize_term n ≠ s := fun hc => hss hc.symm
          rw [hother s (fun hc => hss hc)] at hl
          have hid : t'.term_id ≠ st.store.nextId := by
            have := hidlt s t' hl
            omega
          rw [statsFind_bumpThread, if_neg hid, statsFind_bumpPost, if_neg hid]
          simpa [postCnt, threadCnt, occursTok_append_ne N hne2] using h.chars s t' hs hl hb'
      · have hnm : st.store.nextId ∉ st.stats.map (fun e => e.1) := by
          intro hm
          rcases statsFind_isSome_of_mem_keys hm with ⟨pq, hpq⟩
          rw [hsfnone] at hpq
          cases hpq
        have hk1 := keys_bumpPost_of_not_mem hnm
        have hm2 : st.store.nextId ∈ (bumpPost st.stats st.store.nextId).map (fun e => e.1) := by
          rw [hk1]; simp
        rw [keys_bumpThread_of_mem hm2, hk1]
        rw [List.pairwise_append]
        refine ⟨h.keys, by simp, ?_⟩
        intro a ha b hb2
        simp only [List.mem_singleton] at hb2
        subst hb2
        intro hcon
        exact hnm (hcon ▸ ha)
      · intro i pq hfind
        rw [statsFind_bumpThread] at hfind
        by_cases hii : i = st.store.nextId
        · exact ⟨normalize_term n, ⟨st.store.nextId, false⟩, h0, hself, rfl, hii.symm⟩
        · rw [if_neg hii, statsFind_bumpPost, if_neg hii] at hfind
          rcases h.covers i pq hfind with ⟨s', t', hs', hl', hb', hid⟩
          exact ⟨s', t', hs', hmono s' t' hl', hb', hid⟩
      · intro s hs hl
        have hss : s ≠ normalize_term n := by
          intro hc
          rw [hc, hself] at hl
          cases hl
        rw [hother s hss] at hl
        have hne2 : normalize_term n ≠ s := fun hc => hss hc.symm
        simpa [postCnt, occursTok_append_ne N hne2] using h.unseen s hs hl
      · intro i
        show i ∈ st.postSeen ++ [st.store.nextId] ↔ _
        rw [List.mem_append, List.mem_singleton, h.postSeenSpec i]
        constructor
        · rintro (⟨s, t', hs, hl, hb', hid, hocc⟩ | hi)
          · exact ⟨s, t', hs, hmono s t' hl, hb', hid, occursTok_append_of_occurs hocc⟩
          · exact ⟨normalize_term n, ⟨st.store.nextId, false⟩, h0, hself, rfl, hi.symm, hocc_self⟩
        · rintro ⟨s, t', hs, hl, hb', hid, hocc⟩
          by_cases hss : s = normalize_term n
          · subst hss
            rw [hself] at hl
            have ht' : t' = ⟨st.store.nextId, false⟩ := by
              injection hl with hh
              exact hh.symm
            right
            rw [← hid, ht']
          · left
            rw [hother s hss] at hl
            have hne2 : normalize_term n ≠ s := fun hc => hss hc.symm
            exact ⟨s, t', hs, hl, hb', hid, by rwa [occursTok_append_ne N hne2] at hocc⟩
      · intro i
        show i ∈ st.threadSeen ++ [st.store.nextId] ↔ _
        rw [List.mem_append, List.mem_singleton, h.threadSeenSpec i]
        constructor
        · rintro (⟨s, t', hs, hl, hb', hid, hocc⟩ | hi)
          · exact ⟨s, t', hs, hmono s t' hl, hb', hid, orOcc_append_mono hocc⟩
          · exact ⟨normalize_term n, ⟨st.store.nextId, false⟩, h0, hself, rfl, hi.symm,
              by rw [hocc_self, Bool.or_true]⟩
        · rintro ⟨s, t', hs, hl, hb', hid, hocc⟩
          by_cases hss : s = normalize_term n
          · subst hss
            rw [hself] at hl
            have ht' : t' = ⟨st.store.nextId, false⟩ := by
              injection hl with hh
              exact hh.symm
            right
            rw [← hid, ht']
          · left
            rw [hother s hss] at hl
            have hne2 : normalize_term n ≠ s := fun hc => hss hc.symm
            exact ⟨s, t', hs, hl, hb', hid, by rwa [occursTok_append_ne N hne2] at hocc⟩
      · show st.metrics.filtered_tokens = filteredCnt tok store₀ G P (N ++ [n])
        rw [h.filtered]
        simp [filteredCnt, List.countP_append, List.countP_cons, hft]

end Daily

namespace Daily

open Normalizer (normalize_term)
open Crawl (CollectedPost)

theorem NInv_fold {tok : String → Except Unit (List String)} {store₀ : TermStore}
    {G : List (String × List CollectedPost)} {P : List CollectedPost} :
    ∀ (M : List String) {N : List String} {st : AggSt},
      NInv tok store₀ G P N st → NInv tok store₀ G P (N ++ M) (M.foldl processNoun st)
  | [], N, st, h => by simpa using h
  | n :: M, N, st, h => by
    have h2 := NInv_fold M (NInv_step h n)
    rw [List.append_cons] at h2
    simpa using h2

/-- Invariant at a post boundary: `P` posts of the current thread group are
done, and the per-post seen-set is about to be reset. -/
def PInv (tok : String → Except Unit (List String)) (store₀ : TermStore)
    (G : List (String × List CollectedPost)) (P : List CollectedPost)
    (st : AggSt) : Prop :=
  NInv tok store₀ G P [] { st with postSeen := [] }

/-- Invariant at a thread boundary: `G` thread groups are done, and both
seen-sets are about to be reset. -/
def GInv (tok : String → Except Unit (List String)) (store₀ : TermStore)
    (G : List (String × List CollectedPost)) (st : AggSt) : Prop :=
  NInv tok store₀ G [] [] { st with postSeen := [], threadSeen := [] }

theorem countP_one {α} (p : α → Bool) (a : α) :
    List.countP p [a] = if p a then 1 else 0 := by
  simp [List.countP_cons]

theorem processPost_error {tok : String → Except Unit (List String)} {post : CollectedPost}
    {e : Unit} (st : AggSt) (htk : tok post.content = .error e) :
    processPost tok st post =
      { st with metrics := { st.metrics with
          parsed_posts := st.metrics.parsed_posts + 1,
          tokenize_fail_posts := st.metrics.tokenize_fail_posts + 1 } } := by
  simp [processPost, htk]

theorem processPost_ok_nil {tok : String → Except Unit (List String)} {post : CollectedPost}
    (st : AggSt) (htk : tok post.content = .ok []) :
    processPost tok st post =
      { st with metrics := { st.metrics with
          parsed_posts := st.metrics.parsed_posts + 1 } } := by
  simp [processPost, htk]

theorem processPost_ok {tok : String → Except Unit (List String)} {post : CollectedPost}
    {nouns : List String} (st : AggSt) (htk : tok post.content = .ok nouns)
    (hnil : nouns ≠ []) :
    processPost tok st post =
      nouns.foldl processNoun
        { st with
          metrics := { st.metrics with parsed_posts := st.metrics.parsed_posts + 1 },
          postSeen := [] } := by
  simp [processPost, htk, hnil]

theorem PInv_step {tok : String → Except Unit (List String)} {store₀ : TermStore}
    {G : List (String × List CollectedPost)} {P : List CollectedPost} {st : AggSt}
    (h : PInv tok store₀ G P st) (post : CollectedPost) :
    PInv tok store₀ G (P ++ [post]) (processPost tok st post) := by
  cases htk : tok post.content with
  | error e =>
    rw [processPost_error st htk]
    have hop : ∀ s, occursPost tok s post = false := by
      intro s
      simp [occursPost, htk]
    have hpc : ∀ s, postCnt tok G (P ++ [post]) [] s = postCnt tok G P [] s := by
      intro s
      simp [postCnt, postOccIn, List.countP_append, countP_one, hop]
    have htc : ∀ s, threadCnt tok G (P ++ [post]) [] s = threadCnt tok G P [] s := by
      intro s
      simp [threadCnt, List.any_append, hop]
    have hfc : filteredCnt tok store₀ G (P ++ [post]) [] = filteredCnt tok store₀ G P [] := by
      simp [filteredCnt, filteredIn, htk]
    refine ⟨h.ext, ?_, h.keys, h.covers, ?_, ?_, ?_, ?_⟩
    · intro s t hs hl hb
      rw [hpc s, htc s]
      exact h.chars s t hs hl hb
    · intro s hs hl
      rw [hpc s]
      exact h.unseen s hs hl
    · intro i
      exact h.postSeenSpec i
    · intro i
      have hany : ∀ s : String, ((P ++ [post]).any (occursPost tok s) || occursTok ([] : List String) s) =
          (P.any (occursPost tok s) || occursTok ([] : List String) s) := by
        intro s
        simp [List.any_append, hop]
      constructor
      · intro hi
        rcases (h.threadSeenSpec i).mp hi with ⟨s, t, hs, hl, hb, hid, hocc⟩
        exact ⟨s, t, hs, hl, hb, hid, by rw [hany s]; exact hocc⟩
      · rintro ⟨s, t, hs, hl, hb, hid, hocc⟩
        rw [hany s] at hocc
        exact (h.threadSeenSpec i).mpr ⟨s, t, hs, hl, hb, hid, hocc⟩
    · rw [hfc]
      exact h.filtered
  | ok nouns =>
    by_cases hnil : nouns = []
    · subst hnil
      rw [processPost_ok_nil st htk]
      have hop : ∀ s, occursPost tok s post = false := by
        intro s
        simp [occursPost, occursTok, htk]
      have hpc : ∀ s, postCnt tok G (P ++ [post]) [] s = postCnt tok G P [] s := by
        intro s
        simp [postCnt, postOccIn, List.countP_append, countP_one, hop]
      have htc : ∀ s, threadCnt tok G (P ++ [post]) [] s = threadCnt tok G P [] s := by
        intro s
        simp [threadCnt, List.any_append, hop]
      have hfc : filteredCnt tok store₀ G (P ++ [post]) [] = filteredCnt tok store₀ G P [] := by
        simp [filteredCnt, filteredIn, htk]
      refine ⟨h.ext, ?_, h.keys, h.covers, ?_, ?_, ?_, ?_⟩
      · intro s t hs hl hb
        rw [hpc s, htc s]
        exact h.chars s t hs hl hb
      · intro s hs hl
        rw [hpc s]
        exact h.unseen s hs hl
      · intro i
        exact h.postSeenSpec i
      · intro i
        have hany : ∀ s : String, ((P ++ [post]).any (occursPost tok s) || occursTok ([] : List String) s) =
            (P.any (occursPost tok s) || occursTok ([] : List String) s) := by
          intro s
          simp [List.any_append, hop]
        constructor
        · intro hi
          rcases (h.threadSeenSpec i).mp hi with ⟨s, t, hs, hl, hb, hid, hocc⟩
          exact ⟨s, t, hs, hl, hb, hid, by rw [hany s]; exact hocc⟩
        · rintro ⟨s, t, hs, hl, hb, hid, hocc⟩
          rw [hany s] at hocc
          exact (h.threadSeenSpec i).mpr ⟨s, t, hs, hl, hb, hid, hocc⟩
      · rw [hfc]
        exact h.filtered
    · rw [processPost_ok st htk hnil]
      -- run the noun loop from the reset post seen-set
      have h1 : NInv tok store₀ G P []
          ({ st with
              metrics := { st.metrics with parsed_posts := st.metrics.parsed_posts + 1 },
              postSeen := [] } : AggSt) := by
        refine ⟨h.ext, ?_, h.keys, h.covers, ?_, ?_, ?_, ?_⟩
        · exact h.chars
        · exact h.unseen
        · exact h.postSeenSpec
        · exact h.threadSeenSpec
        · exact h.filtered
      have h2 := NInv_fold nouns h1
      rw [List.nil_append] at h2
      -- transfer to the post boundary
      have hop : ∀ s, occursPost tok s post = occursTok nouns s := by
        intro s
        simp [occursPost, htk]
      have hpc : ∀ s, postCnt tok G (P ++ [post]) [] s = postCnt tok G P nouns s := by
        intro s
        simp only [postCnt, postOccIn, List.countP_append, countP_one, hop, occursTok,
          List.any_nil]
        simp
        omega
      have htc : ∀ s, threadCnt tok G (P ++ [post]) [] s = threadCnt tok G P nouns s := by
        intro s
        have h3 : (P ++ [post]).any (occursPost tok s) =
            (P.any (occursPost tok s) || occursTok nouns s) := by
          rw [List.any_append]
          simp [hop s]
        simp only [threadCnt, h3, occursTok, List.any_nil, Bool.or_false]
      have hfc : filteredCnt tok store₀ G (P ++ [post]) [] = filteredCnt tok store₀ G P nouns := by
        simp [filteredCnt, filteredIn, htk]
        omega
      refine ⟨h2.ext, ?_, h2.keys, h2.covers, ?_, ?_, ?_, ?_⟩
      · intro s t hs hl hb
        rw [hpc s, htc s]
        exact h2.chars s t hs hl hb
      · intro s hs hl
        rw [hpc s]
        exact h2.unseen s hs hl
      · intro i
        simp only [List.not_mem_nil, false_iff]
        rintro ⟨s, t, hs, hl, hb, hid, hocc⟩
        simp [occursTok] at hocc
      · intro i
        have hany : ∀ s : String, ((P ++ [post]).any (occursPost tok s) || occursTok ([] : List String) s) =
            (P.any (occursPost tok s) || occursTok nouns s) := by
          intro s
          simp [List.any_append, hop s, occursTok, Bool.or_assoc]
        constructor
        · intro hi
          rcases (h2.threadSeenSpec i).mp hi with ⟨s, t, hs, hl, hb, hid, hocc⟩
          exact ⟨s, t, hs, hl, hb, hid, by rw [hany s]; exact hocc⟩
        · rintro ⟨s, t, hs, hl, hb, hid, hocc⟩
          rw [hany s] at hocc
          exact (h2.threadSeenSpec i).mpr ⟨s, t, hs, hl, hb, hid, hocc⟩
      · rw [hfc]
        exact h2.filtered

end Daily

namespace Daily

open Normalizer (normalize_term)
open Crawl (CollectedPost)

theorem PInv_fold {tok : String → Except Unit (List String)} {store₀ : TermStore}
    {G : List (String × List CollectedPost)} :
    ∀ (Q : List CollectedPost) {P : List CollectedPost} {st : AggSt},
      PInv tok store₀ G P st → PInv tok store₀ G (P ++ Q) (Q.foldl (processPost tok) st)
  | [], P, st, h => by simpa using h
  | post :: Q, P, st, h => by
    have h2 := PInv_fold Q (PInv_step h post)
    rw [List.append_cons] at h2
    simpa using h2

theorem GInv_step {tok : String → Except Unit (List String)} {store₀ : TermStore}
    {G : List (String × List CollectedPost)} {st : AggSt}
    (h : GInv tok store₀ G st) (g : String × List CollectedPost) :
    GInv tok store₀ (G ++ [g]) (processThread tok st g) := by
  have h0 : PInv tok store₀ G [] ({ st with threadSeen := [] } : AggSt) := h
  have h1 := PInv_fold g.2 h0
  rw [List.nil_append] at h1
  -- h1 : PInv G g.2 (posts fold), i.e. NInv G g.2 [] {· with postSeen := []}
  have hpc : ∀ s, postCnt tok (G ++ [g]) [] [] s = postCnt tok G g.2 [] s := by
    intro s
    simp [postCnt, postOcc, postOccIn]
  have htc : ∀ s, threadCnt tok (G ++ [g]) [] [] s = threadCnt tok G g.2 [] s := by
    intro s
    simp [threadCnt, threadOcc, List.countP_append, countP_one, occursTok]
    try omega
  have hfc : filteredCnt tok store₀ (G ++ [g]) [] [] = filteredCnt tok store₀ G g.2 [] := by
    simp [filteredCnt]
  refine ⟨h1.ext, ?_, h1.keys, h1.covers, ?_, ?_, ?_, ?_⟩
  · intro s t hs hl hb
    rw [hpc s, htc s]
    exact h1.chars s t hs hl hb
  · intro s hs hl
    rw [hpc s]
    exact h1.unseen s hs hl
  · intro i
    simp only [List.not_mem_nil, false_iff]
    rintro ⟨s, t, hs, hl, hb, hid, hocc⟩
    simp [occursTok] at hocc
  · intro i
    simp only [List.not_mem_nil, false_iff]
    rintro ⟨s, t, hs, hl, hb, hid, hocc⟩
    simp [occursTok] at hocc
  · rw [hfc]
    exact h1.filtered

theorem GInv_fold {tok : String → Except Unit (List String)} {store₀ : TermStore} :
    ∀ (H : List (String × List CollectedPost)) {G : List (String × List CollectedPost)} {st : AggSt},
      GInv tok store₀ G st → GInv tok store₀ (G ++ H) (H.foldl (processThread tok) st)
  | [], G, st, h => by simpa using h
  | g :: H, G, st, h => by
    have h2 := GInv_fold H (GInv_step h g)
    rw [List.append_cons] at h2
    simpa using h2

theorem process_posts_GInv (tok : String → Except Unit (List String))
    (posts : List CollectedPost) (target_date : ℤ) (board_key : String)
    (store₀ : TermStore) (hwf : store₀.wf) :
    GInv tok store₀ (groupByThread posts)
      (process_posts tok posts target_date board_key store₀).1 := by
  have h0 : GInv tok store₀ []
      ({ metrics := { fetched_threads := (groupByThread posts).length,
                      fetched_posts := posts.length },
         store := store₀, stats := [], threadSeen := [], postSeen := [] } : AggSt) := by
    refine ⟨StoreExt_refl hwf, ?_, ?_, ?_, ?_, ?_, ?_, ?_⟩
    · intro s t hs hl hb
      simp [statsFind, postCnt, postOcc, postOccIn, occursTok]
    · simp
    · intro i pq hfind
      simp [statsFind] at hfind
    · intro s hs hl
      simp [postCnt, postOcc, postOccIn, occursTok]
    · intro i
      simp [occursTok]
    · intro i
      simp [occursTok]
    · simp [filteredCnt]
  have h1 := GInv_fold (groupByThread posts) h0
  rw [List.nil_append] at h1
  exact h1

end Daily

namespace Daily

open Normalizer (normalize_term)
open Crawl (CollectedPost)

/-- C4: post-level and thread-level hit deduplication.  For every term in the
final `terms` table (looked up by its normalized string) that is not blocked,
the accumulated counters equal the number of posts containing the term at
least once (post_hits — repeats inside one post collapse to 1) and the number
of threads containing it at least once (thread_hits — repeats across the
posts of one thread collapse to 1). -/
theorem process_posts_dedup_counts (tok : String → Except Unit (List String))
    (posts : List CollectedPost) (target_date : ℤ) (board_key : String)
    (store₀ : TermStore) (hwf : store₀.wf) (s : String) (t : Term) (hs : s ≠ "")
    (hl : (process_posts tok posts target_date board_key store₀).1.store.lookup s = some t)
    (hb : t.is_blocked = false) :
    statsFind (process_posts tok posts target_date board_key store₀).1.stats t.term_id =
      if 0 < postOcc tok s (groupByThread posts) then
        some (postOcc tok s (groupByThread posts), threadOcc tok s (groupByThread posts))
      else none := by
  have hg := process_posts_GInv tok posts target_date board_key store₀ hwf
  have hch := hg.chars s t hs hl hb
  simpa [postCnt, threadCnt, postOccIn, occursTok] using hch

/-- C8: every token resolving to a blocked term is dropped into
`filtered_tokens` (together with tokens normalizing to the reject sentinel),
and no blocked term's id ever appears in the persisted `DailyTermStats`
rows. -/
theorem blocked_terms_filtered_and_excluded (tok : String → Except Unit (List String))
    (posts : List CollectedPost) (target_date : ℤ) (board_key : String)
    (store₀ : TermStore) (hwf : store₀.wf) :
    (process_posts tok posts target_date board_key store₀).1.metrics.filtered_tokens =
      ((groupByThread posts).map (fun g => (g.2.map (filteredIn tok store₀)).sum)).sum ∧
    ∀ row ∈ (process_posts tok posts target_date board_key store₀).2, ∀ s t,
      (process_posts tok posts target_date board_key store₀).1.store.lookup s = some t →
      t.is_blocked = true → row.term_id ≠ t.term_id := by
  have hg := process_posts_GInv tok posts target_date board_key store₀ hwf
  constructor
  · have hf := hg.filtered
    simpa [filteredCnt] using hf
  · intro row hrow s t hl hb hcon
    rcases List.mem_map.mp hrow with ⟨e, he, hrow_eq⟩
    have hrid : row.term_id = e.1 := by rw [← hrow_eq]
    have hfind : statsFind (process_posts tok posts target_date board_key store₀).1.stats e.1 =
        some e.2 := statsFind_of_mem hg.keys he
    rcases hg.covers e.1 e.2 hfind with ⟨q, u, hq, hlq, hbu, hid⟩
    by_cases hqs : q = s
    · subst hqs
      rw [hlq] at hl
      injection hl with hh
      rw [← hh] at hb
      rw [hbu] at hb
      cases hb
    · have hne := wf_id_injective hg.ext.1 hlq hl hqs
      apply hne
      rw [hid, ← hrid, hcon]

/-- C10: every persisted `DailyTermStats` row satisfies
`1 ≤ thread_hits ≤ post_hits`: a term's first occurrence in a thread
increments both counters together. -/
theorem rows_hits_bounds (tok : String → Except Unit (List String))
    (posts : List CollectedPost) (target_date : ℤ) (board_key : String)
    (store₀ : TermStore) (hwf : store₀.wf) :
    ∀ row ∈ (process_posts tok posts target_date board_key store₀).2,
      1 ≤ row.thread_hits ∧ row.thread_hits ≤ row.post_hits := by
  have hg := process_posts_GInv tok posts target_date board_key store₀ hwf
  intro row hrow
  rcases List.mem_map.mp hrow with ⟨e, he, hrow_eq⟩
  have hfind : statsFind (process_posts tok posts target_date board_key store₀).1.stats e.1 =
      some e.2 := statsFind_of_mem hg.keys he
  rcases hg.covers e.1 e.2 hfind with ⟨q, u, hq, hlq, hbu, hid⟩
  have hch := hg.chars q u hq hlq hbu
  rw [hid, hfind] at hch
  have hpc : ∀ s, postCnt tok (groupByThread posts) [] [] s = postOcc tok s (groupByThread posts) := by
    intro s
    simp [postCnt, postOccIn, occursTok]
  have htc : ∀ s, threadCnt tok (groupByThread posts) [] [] s =
      threadOcc tok s (groupByThread posts) := by
    intro s
    simp [threadCnt, occursTok]
  rw [hpc q, htc q] at hch
  by_cases hp : 0 < postOcc tok q (groupByThread posts)
  · rw [if_pos hp] at hch
    have he2 : e.2 = (postOcc tok q (groupByThread posts), threadOcc tok q (groupByThread posts)) := by
      injection hch
    have h1 : 0 < threadOcc tok q (groupByThread posts) :=
      threadOcc_pos_of_postOcc_pos tok q (groupByThread posts) hp
    have h2 := threadOcc_le_postOcc tok q (groupByThread posts)
    have hth : row.thread_hits = e.2.2 := by rw [← hrow_eq]
    have hph : row.post_hits = e.2.1 := by rw [← hrow_eq]
    rw [hth, hph, he2]
    exact ⟨h1, h2⟩
  · rw [if_neg hp] at hch
    cases hch

end Daily

namespace Daily

open Crawl (CollectedPost)

/-- Example tokenizer for the witnesses (the injected `extract_nouns`). -/
def exTok : String → Except Unit (List String) := fun c =>
  if c = "p3" then .ok ["Python", "Python", "Python"]
  else if c = "p1" then .ok ["Python"]
  else if c = "pb" then .ok ["NGWORD", "Python"]
  else .ok []

def emptyStore : TermStore := ⟨[], 0⟩

def blockedStore : TermStore := ⟨[("ngword", ⟨5, true⟩)], 6⟩

theorem emptyStore_wf : emptyStore.wf := by
  constructor
  · intro e he
    cases he
  · exact List.Pairwise.nil

theorem blockedStore_wf : blockedStore.wf := by
  constructor
  · intro e he
    simp only [blockedStore, List.mem_singleton] at he
    rw [he]
    decide
  · exact List.pairwise_singleton _ _

theorem process_posts_dedup_counts_witness :
    emptyStore.wf ∧
    ((⟨[], 0⟩ : TermStore).lookup "" = none) ∧
    statsFind (process_posts exTok [⟨"T1", "d1", "p3"⟩] 0 "prog" emptyStore).1.stats 0 =
      some (1, 1) ∧
    statsFind (process_posts exTok [⟨"T1", "d1", "p1"⟩, ⟨"T1", "d2", "p1"⟩] 0 "prog"
      emptyStore).1.stats 0 = some (2, 1) := by
  refine ⟨emptyStore_wf, by decide, ?_, ?_⟩
  · exact (process_posts_dedup_counts exTok [⟨"T1", "d1", "p3"⟩] 0 "prog" emptyStore
      emptyStore_wf "python" ⟨0, false⟩ (by decide) (by decide) rfl).trans (by decide)
  · exact (process_posts_dedup_counts exTok [⟨"T1", "d1", "p1"⟩, ⟨"T1", "d2", "p1"⟩] 0 "prog"
      emptyStore emptyStore_wf "python" ⟨0, false⟩ (by decide) (by decide) rfl).trans (by decide)

theorem blocked_terms_filtered_and_excluded_witness :
    blockedStore.wf ∧
    (process_posts exTok [⟨"T1", "d1", "pb"⟩] 0 "prog" blockedStore).1.metrics.filtered_tokens = 1 ∧
    (process_posts exTok [⟨"T1", "d1", "pb"⟩] 0 "prog" blockedStore).2 ≠ [] ∧
    ∀ row ∈ (process_posts exTok [⟨"T1", "d1", "pb"⟩] 0 "prog" blockedStore).2,
      row.term_id ≠ 5 := by
  refine ⟨blockedStore_wf, ?_, by decide, ?_⟩
  · exact ((blocked_terms_filtered_and_excluded exTok [⟨"T1", "d1", "pb"⟩] 0 "prog"
      blockedStore blockedStore_wf).1).trans (by decide)
  · intro row hrow
    exact (blocked_terms_filtered_and_excluded exTok [⟨"T1", "d1", "pb"⟩] 0 "prog"
      blockedStore blockedStore_wf).2 row hrow "ngword" ⟨5, true⟩ (by decide) rfl

theorem rows_hits_bounds_witness :
    emptyStore.wf ∧
    (process_posts exTok [⟨"T1", "d1", "p1"⟩, ⟨"T1", "d2", "p1"⟩] 0 "prog" emptyStore).2 ≠ [] ∧
    ∀ row ∈ (process_posts exTok [⟨"T1", "d1", "p1"⟩, ⟨"T1", "d2", "p1"⟩] 0 "prog" emptyStore).2,
      1 ≤ row.thread_hits ∧ row.thread_hits ≤ row.post_hits :=
  ⟨emptyStore_wf, by decide,
   rows_hits_bounds exTok [⟨"T1", "d1", "p1"⟩, ⟨"T1", "d2", "p1"⟩] 0 "prog" emptyStore
     emptyStore_wf⟩

end Daily

namespace Weekly

/-- Dates are proleptic-Gregorian ordinals (ℤ) as in Python's
`date.toordinal`: ordinal 1 = 0001-01-01 is a Monday, so
`weekday d = (d - 1) % 7` equals Python's `date.weekday()` (0 = Monday). -/
def weekday (d : ℤ) : ℤ := (d - 1) % 7

/-- `WeeklyProcessor.calculate_week_range`: the previous Monday-to-Sunday
week, computed as `execution_date - (days_since_monday + 7)`. -/
def calculate_week_range (execution_date : ℤ) : ℤ × ℤ :=
  let week_start := execution_date - (weekday execution_date + 7)
  (week_start, week_start + 6)

/-- The `pipeline_runs` ORM row as mapped by `src/database/models.py`,
restricted to the fields the weekly gate reads.  Migration 79f81805fb52 adds
an `is_recovered` column to the table, but `models.py` maps no such
attribute and SQLAlchemy declarative models expose only mapped columns, so
`run.is_recovered` on a row returned by
`PipelineRunRepository.get_by_date_and_board` raises `AttributeError`;
`validLoop` models that read as its error case rather than as a field. -/
structure PipelineRun where
  status : String
deriving DecidableEq, Repr

/-- A `weekly_term_trends` row (`src/database/models.py`). -/
structure WeeklyTermTrends where
  week_start_date : ℤ
  board_key : String
  term_id : ℕ
  post_hits : ℕ
  total_posts : ℕ
  appearance_rate : ℚ
  appearance_rate_ci_lower : Option ℚ
  appearance_rate_ci_upper : Option ℚ
  zscore : Option ℚ
deriving DecidableEq, Repr

/-- A `term_regression_results` row (`src/database/models.py`). -/
structure TermRegressionResult where
  board_key : String
  term_id : ℕ
  intercept : ℚ
  slope : ℚ
  intercept_ci_lower : Option ℚ
  intercept_ci_upper : Option ℚ
  slope_ci_lower : Option ℚ
  slope_ci_upper : Option ℚ
  p_value : Option ℚ
  analysis_start_date : ℤ
  analysis_end_date : ℤ
deriving DecidableEq, Repr

/-- The output of a successful `statsmodels` OLS fit, as unpacked by
`perform_linear_regression`. -/
structure RegOut where
  intercept : ℚ
  slope : ℚ
  intercept_ci_lower : ℚ
  intercept_ci_upper : ℚ
  slope_ci_lower : ℚ
  slope_ci_upper : ℚ
  p_value : ℚ
  r_squared : ℚ
deriving DecidableEq, Repr

/-- Oracle environment for one weekly run.  `get_run`, `weekly_agg` and
`daily_metrics_fetched_posts` model the repository reads
(`PipelineRunRepository.get_by_date_and_board`,
`DailyTermStatsRepository.get_weekly_aggregation`,
`PipelineMetricsDailyRepository.get_by_date_and_board`); `ci` models
`statsmodels.proportion_confint` and `ols` the OLS fit (`none` = the
library call raised); `sqrtQ` models the floating-point square root used
inside `np.std`. -/
structure Env where
  get_run : ℤ → String → Option PipelineRun
  weekly_agg : ℤ → ℤ → String → List ℤ → List (ℕ × ℕ × ℕ)
  daily_metrics_fetched_posts : ℤ → String → Option ℕ
  ci : ℕ → ℕ → ℚ → Option (ℚ × ℚ)
  ols : List ℕ → List ℚ → Option RegOut
  sqrtQ : ℚ → ℚ

/-- `np.mean`. -/
def qMean (l : List ℚ) : ℚ := l.sum / l.length

/-- `np.std(·, ddof=1) ** 2`: the Bessel-corrected sample variance. -/
def qSampleVar (l : List ℚ) : ℚ :=
  (l.map (fun x => (x - qMean l) ^ 2)).sum / ((l.length : ℚ) - 1)

/-- `calculate_zscore` (`src/analysis/statistics.py`).  The source compares
`std < 1e-10`; since `std = √var ≥ 0` this is equivalent to
`var < 1e-20`, which avoids the square root in the guard.  The value in the
main branch divides by the floating `std`, modelled by the `sqrtQ` oracle. -/
def calculate_zscore (sqrtQ : ℚ → ℚ) (current_rate : ℚ)
    (historical_rates : List ℚ) : Option ℚ :=
  if historical_rates.length < 7 then none
  else
    let mean := qMean historical_rates
    let var := qSampleVar historical_rates
    if var < 1 / 10 ^ 20 then some 0
    else some ((current_rate - mean) / sqrtQ var)

/-- `calculate_appearance_rate_ci` (`src/analysis/statistics.py`): the
`total_posts == 0` guard, around the external Jeffreys-interval call
(`none` models the `except` branch). -/
def calculate_appearance_rate_ci (ci : ℕ → ℕ → ℚ → Option (ℚ × ℚ))
    (post_hits total_posts : ℕ) (alpha : ℚ) : Option ℚ × Option ℚ :=
  if total_posts = 0 then (none, none)
  else
    match ci post_hits total_posts alpha with
    | some lohi => (some lohi.1, some lohi.2)
    | none => (none, none)

/-- `perform_linear_regression` (`src/analysis/statistics.py`): the length
guards around the external OLS fit. -/
def perform_linear_regression (ols : List ℕ → List ℚ → Option RegOut)
    (weeks : List ℕ) (appearance_rates : List ℚ) : Option RegOut :=
  if weeks.length ≠ appearance_rates.length ∨ weeks.length < 2 then none
  else ols weeks appearance_rates

/-- `WeeklyTermTrendsRepository.get_by_term_and_week_range`: filter by term,
board and inclusive week range, ordered by `week_start_date`
ascending/descending. -/
def get_by_term_and_week_range (trends : List WeeklyTermTrends) (term_id : ℕ)
    (board_key : String) (start_week_date end_week_date : ℤ)
    (order_asc : Bool) : List WeeklyTermTrends :=
  let rows := trends.filter (fun r =>
    r.term_id = term_id ∧ r.board_key = board_key ∧
    start_week_date ≤ r.week_start_date ∧ r.week_start_date ≤ end_week_date)
  if order_asc then
    rows.insertionSort (fun a b => a.week_start_date ≤ b.week_start_date)
  else
    rows.insertionSort (fun a b => b.week_start_date ≤ a.week_start_date)

/-- `WeeklyTermTrendsRepository.upsert`: overwrite the first row with the
same composite key, or insert. -/
def upsertTrend : List WeeklyTermTrends → WeeklyTermTrends → List WeeklyTermTrends
  | [], row => [row]
  | r :: rest, row =>
    if r.week_start_date = row.week_start_date ∧ r.board_key = row.board_key ∧
        r.term_id = row.term_id then
      row :: rest
    else r :: upsertTrend rest row

/-- `TermRegressionResultRepository.upsert`. -/
def upsertReg : List TermRegressionResult → TermRegressionResult → List TermRegressionResult
  | [], row => [row]
  | r :: rest, row =>
    if r.board_key = row.board_key ∧ r.term_id = row.term_id then row :: rest
    else r :: upsertReg rest row

/-- `WeeklyProcessor.validate_data_collection`'s `while current <= end` loop,
with the iteration count made explicit.  The Python condition
`pipeline_run and (pipeline_run.status == 'success' or
pipeline_run.is_recovered)` short-circuits: a missing run skips both
attribute reads (the guarded else branch logs and moves on), a run with
status `'success'` is kept without touching `is_recovered`, and any other
existing run reaches `pipeline_run.is_recovered` — an attribute `models.py`
does not map — so the loop raises `AttributeError` (`.error ()`). -/
def validLoop (env : Env) (board_key : String) : ℕ → ℤ → Except Unit (List ℤ)
  | 0, _ => .ok []
  | n + 1, d =>
    match env.get_run d board_key with
    | some run =>
      if run.status = "success" then
        match validLoop env board_key n (d + 1) with
        | .ok rest => .ok (d :: rest)
        | .error e => .error e
      else .error ()
    | none => validLoop env board_key n (d + 1)

/-- `WeeklyProcessor.validate_data_collection`: walk the dates of
`[start_date, end_date]`, collecting those whose pipeline run exists with
status `'success'`; the first existing run with any other status raises
`AttributeError` out of the gate (see `validLoop`). -/
def validate_data_collection (env : Env) (start_date end_date : ℤ)
    (board_key : String) : Except Unit (List ℤ) :=
  validLoop env board_key (if start_date ≤ end_date then (end_date - start_date + 1).toNat else 0)
    start_date

/-- `WeeklyProcessor._calculate_zscore_for_term`: fetch the window
`[current_week_start - 49, current_week_start]` in descending order, keep
the rows strictly before the current week, require at least 7, and hand the
rates to `calculate_zscore`. -/
def zscore_for_term (env : Env) (trends : List WeeklyTermTrends) (term_id : ℕ)
    (board_key : String) (current_week_start : ℤ)
    (current_appearance_rate : ℚ) : Option ℚ :=
  let eight_weeks_ago := current_week_start - 7 * 7
  let weekly_data := get_by_term_and_week_range trends term_id board_key
    eight_weeks_ago current_week_start false
  let historical_rates := (weekly_data.filter
    (fun w => w.week_start_date < current_week_start)).map
    (fun w => w.appearance_rate)
  if historical_rates.length < 7 then none
  else calculate_zscore env.sqrtQ current_appearance_rate historical_rates

/-- `WeeklyProcessor._perform_regression_analysis`: fetch the window
`[current_week_start - 49, current_week_start]` ascending; with fewer than
8 rows (or a failed fit) leave the regression table untouched, otherwise
upsert the fitted coefficients with the window bounds. -/
def perform_regression_analysis (env : Env) (trends : List WeeklyTermTrends)
    (regs : List TermRegressionResult) (term_id : ℕ) (board_key : String)
    (current_week_start : ℤ) : List TermRegressionResult :=
  let eight_weeks_ago := current_week_start - 7 * 7
  let weekly_data := get_by_term_and_week_range trends term_id board_key
    eight_weeks_ago current_week_start true
  if weekly_data.length < 8 then regs
  else
    match perform_linear_regression env.ols (List.range 8)
        (weekly_data.map (fun w => w.appearance_rate)) with
    | none => regs
    | some out =>
      upsertReg regs
        ⟨board_key, term_id, out.intercept, out.slope,
          some out.intercept_ci_lower, some out.intercept_ci_upper,
          some out.slope_ci_lower, some out.slope_ci_upper,
          some out.p_value, eight_weeks_ago, current_week_start + 6⟩

/-- The metrics returned by `process_weekly_analysis` (wall-clock fields
omitted). -/
structure WeeklyProcessorMetrics where
  processed_terms : ℕ
  error_terms : ℕ
  invalid_dates : List ℤ
deriving DecidableEq, Repr

/-- The body of the `for term_data in weekly_aggregation` loop: compute the
appearance rate, CI and rolling z-score, upsert the `weekly_term_trends`
row, then run the regression step against the just-updated trends.  All
model operations are total, so the `except` branch (error_terms) is never
taken. -/
def processTerm (env : Env) (board_key : String) (week_start : ℤ)
    (total_posts : ℕ)
    (acc : List WeeklyTermTrends × List TermRegressionResult × ℕ)
    (td : ℕ × ℕ × ℕ) : List WeeklyTermTrends × List TermRegressionResult × ℕ :=
  let term_id := td.1
  let post_hits := td.2.1
  let appearance_rate : ℚ :=
    if 0 < total_posts then (post_hits : ℚ) / (total_posts : ℚ) else 0
  let ci := calculate_appearance_rate_ci env.ci post_hits total_posts (5 / 100)
  let z := zscore_for_term env acc.1 term_id board_key week_start appearance_rate
  let trends2 := upsertTrend acc.1
    ⟨week_start, board_key, term_id, post_hits, total_posts, appearance_rate,
      ci.1, ci.2, z⟩
  let regs2 := perform_regression_analysis env trends2 acc.2.1 term_id board_key week_start
  (trends2, regs2, acc.2.2 + 1)

/-- `WeeklyProcessor.process_weekly_analysis`: resolve the week, run the
validity gate (short-circuiting with zero processed terms when no date is
valid), aggregate the valid days, and process each term, threading the
`weekly_term_trends` and `term_regression_results` tables through the
loop.  The gate call sits outside the per-term `try`, so an
`AttributeError` raised by `validate_data_collection` propagates out of the
whole function (`.error`). -/
def process_weekly_analysis (env : Env) (trends₀ : List WeeklyTermTrends)
    (regs₀ : List TermRegressionResult) (execution_date : ℤ)
    (board_key : String) :
    Except Unit
      (WeeklyProcessorMetrics × List WeeklyTermTrends × List TermRegressionResult) :=
  let week_start := (calculate_week_range execution_date).1
  let week_end := (calculate_week_range execution_date).2
  match validate_data_collection env week_start week_end board_key with
  | .error e => .error e
  | .ok valid_dates =>
    let invalid_dates := ((List.range 7).map (fun i => week_start + (i : ℤ))).filter
      (fun d => d ∉ valid_dates)
    if valid_dates = [] then .ok (⟨0, 0, invalid_dates⟩, trends₀, regs₀)
    else
      let agg := env.weekly_agg week_start week_end board_key valid_dates
      let total_posts := (valid_dates.map (fun d =>
        match env.daily_metrics_fetched_posts d board_key with
        | some k => k
        | none => 0)).sum
      let final := agg.foldl (processTerm env board_key week_start total_posts)
        (trends₀, regs₀, 0)
      .ok (⟨final.2.2, 0, invalid_dates⟩, final.1, final.2.1)

end Weekly

namespace Weekly

theorem validLoop_ok_mem (env : Env) (b : String) :
    ∀ (n : ℕ) (d0 : ℤ) (vs : List ℤ),
      validLoop env b n d0 = .ok vs →
      ∀ d : ℤ, d ∈ vs ↔
        (d0 ≤ d ∧ d < d0 + n ∧ ∃ r, env.get_run d b = some r ∧ r.status = "success")
  | 0, d0, vs => by
    intro h d
    simp only [validLoop] at h
    injection h with h
    subst h
    simp only [List.not_mem_nil, false_iff]
    rintro ⟨h1, h2, -⟩
    omega
  | n + 1, d0, vs => by
    intro h d
    cases hr : env.get_run d0 b with
    | none =>
      simp only [validLoop, hr] at h
      have ih := validLoop_ok_mem env b n (d0 + 1) vs h d
      rw [ih]
      constructor
      · rintro ⟨h1, h2, hP⟩
        exact ⟨by omega, by omega, hP⟩
      · rintro ⟨h1, h2, hP⟩
        by_cases hd : d = d0
        · exfalso
          rcases hP with ⟨r, hr2, -⟩
          rw [hd, hr] at hr2
          cases hr2
        · exact ⟨by omega, by omega, hP⟩
    | some run =>
      simp only [validLoop, hr] at h
      by_cases hok : run.status = "success"
      · rw [if_pos hok] at h
        cases hin : validLoop env b n (d0 + 1) with
        | error e =>
          rw [hin] at h
          cases h
        | ok rest =>
          rw [hin] at h
          injection h with h
          subst h
          have ih := validLoop_ok_mem env b n (d0 + 1) rest hin d
          rw [List.mem_cons, ih]
          constructor
          · rintro (rfl | ⟨h1, h2, hP⟩)
            · exact ⟨le_refl _, by omega, run, hr, hok⟩
            · exact ⟨by omega, by omega, hP⟩
          · rintro ⟨h1, h2, hP⟩
            by_cases hd : d = d0
            · left
              exact hd
            · right
              exact ⟨by omega, by omega, hP⟩
      · rw [if_neg hok] at h
        cases h

theorem validLoop_error_of_nonsuccess (env : Env) (b : String) :
    ∀ (n : ℕ) (d0 d : ℤ) (r : PipelineRun),
      d0 ≤ d → d < d0 + n → env.get_run d b = some r → r.status ≠ "success" →
      validLoop env b n d0 = .error ()
  | 0, d0, d, r => by
    intro h1 h2 _ _
    omega
  | n + 1, d0, d, r => by
    intro h1 h2 hget hs
    by_cases hd : d = d0
    · subst hd
      simp only [validLoop, hget, if_neg hs]
    · have hrec := validLoop_error_of_nonsuccess env b n (d0 + 1) d r (by omega) (by omega) hget hs
      cases hr : env.get_run d0 b with
      | none =>
        simp only [validLoop, hr]
        exact hrec
      | some run =>
        by_cases hok : run.status = "success"
        · simp only [validLoop, hr, if_pos hok, hrec]
        · simp only [validLoop, hr, if_neg hok]

/-- C6: contrary to the claim, a date inside the checked window whose
pipeline run exists with a status other than "success" is not excluded from
the valid set — evaluating the gate condition reaches the
`pipeline_run.is_recovered` read, an attribute `models.py` does not map, so
`validate_data_collection` raises `AttributeError` for the whole window
instead of returning any valid-date set at all. -/
theorem validate_gate_crashes_on_nonsuccess_run (env : Env)
    (start_date end_date : ℤ) (board_key : String) (d : ℤ) (r : PipelineRun)
    (hd1 : start_date ≤ d) (hd2 : d ≤ end_date)
    (hr : env.get_run d board_key = some r) (hs : r.status ≠ "success") :
    validate_data_collection env start_date end_date board_key = .error () := by
  unfold validate_data_collection
  rw [if_pos (le_trans hd1 hd2)]
  exact validLoop_error_of_nonsuccess env board_key _ start_date d r hd1 (by omega) hr hs

/-- An environment whose every pipeline-run read returns a run with status
"failed". -/
def failedRunEnv : Env where
  get_run := fun _ _ => some ⟨"failed"⟩
  weekly_agg := fun _ _ _ _ => []
  daily_metrics_fetched_posts := fun _ _ => none
  ci := fun _ _ _ => none
  ols := fun _ _ => none
  sqrtQ := fun q => q

theorem validate_gate_crashes_witness :
    ((1 : ℤ) ≤ 1) ∧ ((1 : ℤ) ≤ 7) ∧
    failedRunEnv.get_run 1 "prog" = some ⟨"failed"⟩ ∧
    (PipelineRun.mk "failed").status ≠ "success" ∧
    validate_data_collection failedRunEnv 1 7 "prog" = .error () :=
  ⟨by decide, by decide, rfl, by decide,
    validate_gate_crashes_on_nonsuccess_run failedRunEnv 1 7 "prog" 1 ⟨"failed"⟩
      (by decide) (by decide) rfl (by decide)⟩

/-- C7: when the validity gate returns the empty valid-date set for the
resolved week, `process_weekly_analysis` returns without raising, with zero
processed terms and zero error terms, its `invalid_dates` exactly the 7
dates of the week, and neither the weekly-trend table nor the regression
table touched. -/
theorem process_weekly_no_valid_dates (env : Env) (trends₀ : List WeeklyTermTrends)
    (regs₀ : List TermRegressionResult) (execution_date : ℤ) (board_key : String)
    (h : validate_data_collection env (calculate_week_range execution_date).1
      (calculate_week_range execution_date).2 board_key = .ok []) :
    process_weekly_analysis env trends₀ regs₀ execution_date board_key =
      .ok (⟨0, 0, (List.range 7).map (fun i => (calculate_week_range execution_date).1 + (i : ℤ))⟩,
        trends₀, regs₀) := by
  simp only [process_weekly_analysis]
  rw [h]
  simp

end Weekly

namespace Weekly

/-- An environment with no pipeline-run records and empty read oracles. -/
def noRunsEnv : Env where
  get_run := fun _ _ => none
  weekly_agg := fun _ _ _ _ => []
  daily_metrics_fetched_posts := fun _ _ => none
  ci := fun _ _ _ => none
  ols := fun _ _ => none
  sqrtQ := fun q => q

theorem process_weekly_no_valid_dates_witness :
    validate_data_collection noRunsEnv (calculate_week_range 8).1
      (calculate_week_range 8).2 "prog" = .ok [] ∧
    process_weekly_analysis noRunsEnv [] [] 8 "prog" =
      .ok (⟨0, 0, (List.range 7).map (fun i => (calculate_week_range 8).1 + (i : ℤ))⟩, [], []) ∧
    ((List.range 7).map (fun i => (calculate_week_range 8).1 + (i : ℤ))).length = 7 := by
  refine ⟨by rfl, ?_, by decide⟩
  exact process_weekly_no_valid_dates noRunsEnv [] [] 8 "prog" (by rfl)

/-- C5: when fewer than 8 weekly-trend rows lie in the 8-week window ending
at the current week for this (board, term), the regression step leaves the
`term_regression_results` table completely unchanged — no row is overwritten
or deleted. -/
theorem regression_skips_partial_window (env : Env) (trends : List WeeklyTermTrends)
    (regs : List TermRegressionResult) (term_id : ℕ) (board_key : String)
    (current_week_start : ℤ)
    (h : (trends.filter (fun r => r.term_id = term_id ∧ r.board_key = board_key ∧
        current_week_start - 49 ≤ r.week_start_date ∧
        r.week_start_date ≤ current_week_start)).length < 8) :
    perform_regression_analysis env trends regs term_id board_key current_week_start = regs := by
  have h49 : current_week_start - 7 * 7 = current_week_start - 49 := by norm_num
  have hlen : (get_by_term_and_week_range trends term_id board_key
      (current_week_start - 7 * 7) current_week_start true).length < 8 := by
    unfold get_by_term_and_week_range
    rw [if_pos rfl]
    rw [(List.perm_insertionSort _ _).length_eq]
    rw [h49]
    exact h
  simp only [perform_regression_analysis]
  rw [if_pos hlen]

def skipTrendRow (ws : ℤ) : WeeklyTermTrends :=
  ⟨ws, "prog", 1, 0, 0, 0, none, none, none⟩

def skipRegRow : TermRegressionResult :=
  ⟨"prog", 1, 1, 2, none, none, none, none, none, 0, 6⟩

theorem regression_skips_partial_window_witness :
    (((List.range 7).map (fun i => skipTrendRow (100 - 49 + 7 * (i : ℤ)))).filter
      (fun r => r.term_id = 1 ∧ r.board_key = "prog" ∧
        (100 : ℤ) - 49 ≤ r.week_start_date ∧ r.week_start_date ≤ 100)).length < 8 ∧
    perform_regression_analysis noRunsEnv
      ((List.range 7).map (fun i => skipTrendRow (100 - 49 + 7 * (i : ℤ))))
      [skipRegRow] 1 "prog" 100 = [skipRegRow] := by
  refine ⟨by decide, ?_⟩
  exact regression_skips_partial_window noRunsEnv _ [skipRegRow] 1 "prog" 100 (by decide)

end Weekly

namespace Weekly

theorem qMean_perm {l l' : List ℚ} (h : l.Perm l') : qMean l = qMean l' := by
  unfold qMean
  rw [h.sum_eq, h.length_eq]

theorem qSampleVar_perm {l l' : List ℚ} (h : l.Perm l') : qSampleVar l = qSampleVar l' := by
  unfold qSampleVar
  rw [qMean_perm h, (h.map _).sum_eq, h.length_eq]

/-- C2 (amended): the historical rates feeding the rolling z-score are the
stored rows of the preceding 7 weeks — the window from 49 days before the
current week start, strictly before the current week; with fewer than 7 such
rows the z-score is null, and with at least 7 it is `calculate_zscore` of
their rates (0 when the Bessel-corrected sample variance is below 1e-20,
i.e. the sample standard deviation is below 1e-10). -/
theorem zscore_uses_seven_week_window (env : Env) (trends : List WeeklyTermTrends)
    (term_id : ℕ) (board_key : String) (current_week_start : ℤ) (rate : ℚ) :
    zscore_for_term env trends term_id board_key current_week_start rate =
      (let hist := (trends.filter (fun r => r.term_id = term_id ∧
          r.board_key = board_key ∧
          current_week_start - 49 ≤ r.week_start_date ∧
          r.week_start_date < current_week_start)).map
          (fun r => r.appearance_rate)
       if hist.length < 7 then none
       else if qSampleVar hist < 1 / 10 ^ 20 then some 0
       else some ((rate - qMean hist) / env.sqrtQ (qSampleVar hist))) := by
  have h49 : current_week_start - 7 * 7 = current_week_start - 49 := by norm_num
  have hflt : (trends.filter (fun r => r.term_id = term_id ∧ r.board_key = board_key ∧
        current_week_start - 7 * 7 ≤ r.week_start_date ∧
        r.week_start_date ≤ current_week_start)).filter
        (fun w => w.week_start_date < current_week_start) =
      trends.filter (fun r => r.term_id = term_id ∧ r.board_key = board_key ∧
        current_week_start - 49 ≤ r.week_start_date ∧
        r.week_start_date < current_week_start) := by
    rw [List.filter_filter]
    apply List.filter_congr
    intro a _
    simp only [Bool.and_eq_true, decide_eq_decide, ← Bool.decide_and]
    constructor
    · rintro ⟨h1, ha, hb, hc, -⟩
      exact ⟨ha, hb, by omega, h1⟩
    · rintro ⟨ha, hb, hc, hd⟩
      exact ⟨hd, ha, hb, by omega, by omega⟩
  have hperm : ((get_by_term_and_week_range trends term_id board_key
      (current_week_start - 7 * 7) current_week_start false).filter
      (fun w => w.week_start_date < current_week_start)).map (fun w => w.appearance_rate)
      |>.Perm ((trends.filter (fun r => r.term_id = term_id ∧
        r.board_key = board_key ∧
        current_week_start - 49 ≤ r.week_start_date ∧
        r.week_start_date < current_week_start)).map (fun r => r.appearance_rate)) := by
    unfold get_by_term_and_week_range
    rw [if_neg (by decide)]
    refine List.Perm.map _ ?_
    rw [← hflt]
    exact List.Perm.filter _ (List.perm_insertionSort _ _)
  simp only [zscore_for_term]
  rw [hperm.length_eq]
  by_cases hlen : ((trends.filter (fun r => r.term_id = term_id ∧
      r.board_key = board_key ∧
      current_week_start - 49 ≤ r.week_start_date ∧
      r.week_start_date < current_week_start)).map (fun r => r.appearance_rate)).length < 7
  · rw [if_pos hlen, if_pos hlen]
  · rw [if_neg hlen, if_neg hlen]
    simp only [calculate_zscore]
    rw [hperm.length_eq, if_neg hlen, qSampleVar_perm hperm, qMean_perm hperm]

/-- Seven weekly-trend rows for term 1 on board "prog", all with rate 0, at
week starts 100-56, 100-49, ..., 100-14: all lie in the preceding 8 weeks
and strictly before week 100, but the earliest (100-56) is outside the
49-day window the code actually queries. -/
def cexTrends : List WeeklyTermTrends :=
  (List.range 7).map (fun i => ⟨100 - 56 + 7 * (i : ℤ), "prog", 1, 0, 0, 0, none, none, none⟩)

/-- C2 (counterexample): with the seven historical rows of `cexTrends` — all
within the preceding 8 weeks and strictly before the current week, all with
rate 0 and sample variance 0 — the claim mandates a z-score of 0, but the
code's 49-day window sees only 6 of them and returns null. -/
theorem zscore_window_counterexample :
    zscore_for_term noRunsEnv cexTrends 1 "prog" 100 0 = none ∧
    (cexTrends.filter (fun r => r.term_id = 1 ∧ r.board_key = "prog" ∧
      (100 : ℤ) - 56 ≤ r.week_start_date ∧ r.week_start_date < 100)).length = 7 ∧
    calculate_zscore noRunsEnv.sqrtQ 0
      ((cexTrends.filter (fun r => r.term_id = 1 ∧ r.board_key = "prog" ∧
        (100 : ℤ) - 56 ≤ r.week_start_date ∧ r.week_start_date < 100)).map
        (fun r => r.appearance_rate)) = some 0 ∧
    (some (0 : ℚ) ≠ (none : Option ℚ)) := by
  refine ⟨by decide, by decide, ?_, by decide⟩
  norm_num [cexTrends, calculate_zscore, qSampleVar, qMean, List.range_succ,
    List.filter, noRunsEnv]

end Weekly
